import Mathlib

/-!
Shallow embedding of the `metaflow-prefect` compiler
(`src/metaflow_extensions/prefect/plugins/prefect/`): the IR types from
`_types.py`, the graph analyzer from `_graph.py`, the compilation facade from
`prefect_flow.py`, and the naming helper from `prefect_cli.py`.

Python dynamic values appearing in decorator attributes and parameter kwargs
are embedded as small inductive types; Python truthiness is modelled
explicitly where the source relies on it.
-/

namespace MetaflowPrefect

/-- Mirror of `_types.NodeType` (`start`, `linear`, `split`, `join`,
`foreach`, `end`). `end` is a Lean keyword, hence `end_`. -/
inductive NodeType where
  | start
  | linear
  | split
  | join
  | foreach
  | end_
deriving DecidableEq, Repr

/-- `NodeType(s)`: conversion from a Metaflow node-type string; `none` models
the `ValueError` raised on an unknown string. -/
def nodeTypeOf : String → Option NodeType
  | "start" => some .start
  | "linear" => some .linear
  | "split" => some .split
  | "join" => some .join
  | "foreach" => some .foreach
  | "end" => some .end_
  | _ => none

/-- A Python value stored in a decorator's `attributes` mapping. -/
inductive AttrVal where
  | aint (n : Int)
  | astr (s : String)
  | adict (kvs : List (String × String))
  | abool (b : Bool)
  | anone
deriving DecidableEq, Repr

/-- Python truthiness of an attribute value (`if x:`). -/
def AttrVal.truthy : AttrVal → Bool
  | .aint n => n ≠ 0
  | .astr s => s ≠ ""
  | .adict kvs => kvs ≠ []
  | .abool b => b
  | .anone => false

/-- Python `int(x)` on the attribute values the analyzer converts
(ints, numeric strings, bools). -/
def AttrVal.toInt : AttrVal → Int
  | .aint n => n
  | .astr s => (s.toInt?).getD 0
  | .abool b => if b then 1 else 0
  | _ => 0

/-- Extract the string payload of a string-valued attribute. -/
def AttrVal.asStr : AttrVal → String
  | .astr s => s
  | _ => ""

/-- Extract the dict payload of a dict-valued attribute. -/
def AttrVal.asDict : AttrVal → List (String × String)
  | .adict kvs => kvs
  | _ => []

/-- A Metaflow step decorator as the analyzer sees it: its `name`, its
`attributes` mapping, and the `(user, system)` pair its
`step_task_retry_count()` method returns. -/
structure Deco where
  name : String
  attributes : List (String × AttrVal)
  retryCounts : Int × Int
deriving DecidableEq, Repr

/-- `deco.attributes.get(key, dflt)`. -/
def Deco.getAttr (d : Deco) (key : String) (dflt : AttrVal) : AttrVal :=
  ((d.attributes.find? (fun kv => kv.1 == key)).map (·.2)).getD dflt

/-- A node of a Metaflow `FlowGraph` (the fields `_graph.py` reads). -/
structure Node where
  name : String
  type : String
  in_funcs : List String
  out_funcs : List String
  split_parents : List String
  parallel_foreach : Bool
  decorators : List Deco
deriving DecidableEq, Repr

/-- A Metaflow `FlowGraph`: iterable over nodes, indexable by step name. -/
abbrev Graph := List Node

/-- `graph[name]`; `none` models the `KeyError` on a missing step name. -/
def lookupNode (g : Graph) (n : String) : Option Node :=
  g.find? (fun nd => nd.name == n)

/-- `_graph._max_user_code_retries`: maximum user-code retry count across all
decorators on a node (0 if none). -/
def maxUserCodeRetries (node : Node) : Int :=
  node.decorators.foldl (fun m d => max m d.retryCounts.1) 0

/-- `_graph._step_retry_delay_seconds` on the node's decorator list:
the first `retry` decorator with a truthy `minutes_between_retries`
yields `int(mins) * 60`; otherwise `None`. -/
def stepRetryDelaySeconds : List Deco → Option Int
  | [] => none
  | d :: rest =>
    if d.name = "retry" then
      let mins := d.getAttr "minutes_between_retries" (.aint 0)
      if mins.truthy then some (mins.toInt * 60) else stepRetryDelaySeconds rest
    else stepRetryDelaySeconds rest

/-- `_graph._step_timeout_seconds` on the node's decorator list: for the first
`timeout` decorator whose `seconds + minutes*60 + hours*3600` total is
positive, that total; otherwise `None`. `get(k, 0) or 0` maps falsy stored
values to 0. -/
def stepTimeoutSeconds : List Deco → Option Int
  | [] => none
  | d :: rest =>
    if d.name = "timeout" then
      let orZero : AttrVal → AttrVal := fun v => if v.truthy then v else .aint 0
      let secs := (orZero (d.getAttr "seconds" (.aint 0))).toInt
      let mins := (orZero (d.getAttr "minutes" (.aint 0))).toInt
      let hours := (orZero (d.getAttr "hours" (.aint 0))).toInt
      let total := secs + mins * 60 + hours * 3600
      if total > 0 then some total else stepTimeoutSeconds rest
    else stepTimeoutSeconds rest

/-- Python string `<`: code-point lexicographic comparison. -/
def strLtChars : List Char → List Char → Bool
  | [], [] => false
  | [], _ :: _ => true
  | _ :: _, [] => false
  | a :: as, b :: bs => if a = b then strLtChars as bs else decide (a < b)

def pyStrLt (a b : String) : Bool :=
  strLtChars a.toList b.toList

/-- Python `sorted` on `(key, value)` string pairs: lexicographic tuple
comparison, key first, then value. -/
def pairLe (p q : String × String) : Bool :=
  pyStrLt p.1 q.1 || (p.1 == q.1 && (pyStrLt p.2 q.2 || p.2 == q.2))

/-- Insertion of a pair into a list sorted by `pairLe`. -/
def insertPair (p : String × String) : List (String × String) → List (String × String)
  | [] => [p]
  | q :: rest => if pairLe p q then p :: q :: rest else q :: insertPair p rest

/-- `tuple(sorted(raw.items()))` for a string-to-string dict. -/
def pySorted (l : List (String × String)) : List (String × String) :=
  l.foldr insertPair []

/-- `_graph._step_env_vars` on the node's decorator list: the sorted
`(key, value)` pairs of the first `environment` decorator's `vars` dict
(`or {}` maps falsy to empty); empty if there is no such decorator. -/
def stepEnvVars : List Deco → List (String × String)
  | [] => []
  | d :: rest =>
    if d.name = "environment" then
      let raw := d.getAttr "vars" .anone
      pySorted (if raw.truthy then raw.asDict else [])
    else stepEnvVars rest

/-- Errors the graph traversal can raise: a `KeyError` on `graph[name]`, a
`ValueError` from `NodeType(...)`, or (model-only) fuel exhaustion standing
for non-termination of the `while queue:` loop. -/
inductive TopoError where
  | missingNode (name : String)
  | badNodeType (t : String)
  | fuelExhausted
deriving DecidableEq, Repr

/-- `_graph._is_foreach_join`: a join step whose most recent enclosing fork
(the last element of `split_parents`) has type `foreach`. -/
def isForeachJoin (g : Graph) (node : Node) : Except TopoError Bool :=
  if node.type ≠ "join" then .ok false
  else
    match node.split_parents.getLast? with
    | none => .ok false
    | some p =>
      match lookupNode g p with
      | none => .error (.missingNode p)
      | some pn => .ok (pn.type = "foreach")

/-- `_graph._is_split_join`: a join step whose most recent enclosing fork has
type `split`. -/
def isSplitJoin (g : Graph) (node : Node) : Except TopoError Bool :=
  if node.type ≠ "join" then .ok false
  else
    match node.split_parents.getLast? with
    | none => .ok false
    | some p =>
      match lookupNode g p with
      | none => .error (.missingNode p)
      | some pn => .ok (pn.type = "split")

/-- The step record as constructed by `_graph._topological_order`
(`StepSpec(name=..., ..., env_vars=...)`).  Note: the `StepSpec` dataclass
declared in `_types.py` stops after `is_split_join`; the last three fields
below appear only in the constructor call in `_graph.py` (and in the test
suite's expectations), not in the dataclass declaration — see
`stepSpecDeclaredFields` / `stepSpecConstructedKwargs`. -/
structure StepSpec where
  name : String
  node_type : NodeType
  in_funcs : List String
  out_funcs : List String
  split_parents : List String
  max_user_code_retries : Int
  is_foreach_join : Bool
  is_split_join : Bool
  timeout_seconds : Option Int
  retry_delay_seconds : Option Int
  env_vars : List (String × String)
deriving DecidableEq, Repr

/-- Field names of the `StepSpec` dataclass as declared in `_types.py`
(lines 25–39). -/
def stepSpecDeclaredFields : List String :=
  ["name", "node_type", "in_funcs", "out_funcs", "split_parents",
   "max_user_code_retries", "is_foreach_join", "is_split_join"]

/-- Keyword arguments passed to `StepSpec(...)` by
`_graph._topological_order` (lines 184–196). -/
def stepSpecConstructedKwargs : List String :=
  ["name", "node_type", "in_funcs", "out_funcs", "split_parents",
   "max_user_code_retries", "is_foreach_join", "is_split_join",
   "timeout_seconds", "retry_delay_seconds", "env_vars"]

/-- The `StepSpec(...)` constructor call inside `_topological_order`'s loop
body (node type conversion, join classification, policy extraction). -/
def mkStepSpec (g : Graph) (node : Node) : Except TopoError StepSpec :=
  match nodeTypeOf node.type with
  | none => .error (.badNodeType node.type)
  | some nt =>
    match isForeachJoin g node with
    | .error e => .error e
    | .ok fj =>
      match isSplitJoin g node with
      | .error e => .error e
      | .ok sj =>
        .ok
          { name := node.name
            node_type := nt
            in_funcs := node.in_funcs
            out_funcs := node.out_funcs
            split_parents := node.split_parents
            max_user_code_retries := maxUserCodeRetries node
            is_foreach_join := fj
            is_split_join := sj
            timeout_seconds := stepTimeoutSeconds node.decorators
            retry_delay_seconds := stepRetryDelaySeconds node.decorators
            env_vars := stepEnvVars node.decorators }

/-- One `while queue:` loop of `_graph._topological_order`, fuelled.  The
deque's `popleft` takes the list head, `append` adds at the tail.  A node is
skipped when already visited, deferred to the back of the queue while some
predecessor is unvisited, and otherwise visited: its `StepSpec` is appended
and its not-yet-visited successors are enqueued. -/
def topoLoop (g : Graph) :
    Nat → List String → List String → List StepSpec → Except TopoError (List StepSpec)
  | 0, _, _, _ => .error .fuelExhausted
  | _ + 1, _, [], result => .ok result
  | fuel + 1, visited, name :: queue, result =>
    if name ∈ visited then topoLoop g fuel visited queue result
    else
      match lookupNode g name with
      | none => .error (.missingNode name)
      | some node =>
        if node.in_funcs.any (fun p => !(visited.contains p)) then
          topoLoop g fuel visited (queue ++ [name]) result
        else
          match mkStepSpec g node with
          | .error e => .error e
          | .ok spec =>
            topoLoop g fuel (name :: visited)
              (queue ++ node.out_funcs.filter (fun c => !((name :: visited).contains c)))
              (result ++ [spec])

/-- `_graph._topological_order`: BFS from `"start"`. -/
def topologicalOrder (g : Graph) (fuel : Nat) : Except TopoError (List StepSpec) :=
  topoLoop g fuel [] ["start"] []

/-- A Python value stored in a `Parameter`'s kwargs: a scalar, or a
deploy-time-deferred default (`DeployTimeField`) carrying the scalar
that evaluating it produces. -/
inductive PyScalar where
  | pstr (s : String)
  | pint (n : Int)
  | pbool (b : Bool)
  | pnone
  | pother (typeName : String)
deriving DecidableEq, Repr

inductive PValue where
  | scalar (v : PyScalar)
  | deferredDefault (result : PyScalar)
deriving DecidableEq, Repr

/-- External collaborator `metaflow.parameters.deploy_time_eval`: evaluates a
deploy-time-deferred default into its concrete scalar, and returns any other
value unchanged. -/
def deployTimeEval : PValue → PyScalar
  | .scalar v => v
  | .deferredDefault r => r

/-- `type(v).__name__` for the embedded scalars. -/
def pyTypeName : PyScalar → String
  | .pstr _ => "str"
  | .pint _ => "int"
  | .pbool _ => "bool"
  | .pnone => "NoneType"
  | .pother t => t

/-- The `_type_map` dict literal in `_graph._extract_parameters`. -/
def typeMapPairs : List (String × String) :=
  [("int", "int"), ("float", "float"), ("bool", "bool"),
   ("str", "str"), ("NoneType", "str")]

/-- `_type_map.get(type(default).__name__, "str")`. -/
def typeMapLookup (tn : String) : String :=
  (((typeMapPairs.find? (fun kv => kv.1 == tn)).map (·.2)).getD "str")

/-- A Metaflow `Parameter` as `_graph.py` reads it: its name, its `kwargs`
dict and the `_override_kwargs` dict some framework variants use. -/
structure Param where
  name : String
  kwargs : List (String × PValue)
  overrideKwargs : List (String × PValue)
deriving DecidableEq, Repr

/-- `d.get(key)` on a parameter kwargs dict (absent ↦ `None`). -/
def kwGet (kvs : List (String × PValue)) (key : String) : PValue :=
  ((kvs.find? (fun kv => kv.1 == key)).map (·.2)).getD (.scalar .pnone)

/-- `_graph._param_kwarg`: read `param.kwargs[key]`, falling back to
`param._override_kwargs[key]` when the primary value `is None`. -/
def paramKwarg (p : Param) (key : String) : PValue :=
  let value := kwGet p.kwargs key
  if value = .scalar .pnone then kwGet p.overrideKwargs key else value

/-- The `ParameterSpec` dataclass of `_types.py`. -/
structure ParameterSpec where
  name : String
  default : PyScalar
  description : String
  type_name : String
deriving DecidableEq, Repr

/-- `_param_kwarg(param, "help") or ""` for the string-valued `help` kwarg. -/
def helpString : PValue → String
  | .scalar (.pstr s) => s
  | _ => ""

/-- The loop body of `_graph._extract_parameters` for one parameter. -/
def extractParamOne (p : Param) : ParameterSpec :=
  let default := deployTimeEval (paramKwarg p "default")
  { name := p.name
    default := default
    description := helpString (paramKwarg p "help")
    type_name := typeMapLookup (pyTypeName default) }

/-- The flow object as `_graph.py` and `prefect_flow.py` read it:
`name`, `__doc__`, `_tags`, `_get_parameters()` and `_flow_decorators`. -/
structure Flow where
  name : String
  doc : Option String
  tags : List String
  parameters : List Param
  flowDecorators : List (String × List Deco)
deriving DecidableEq, Repr

/-- `flow._flow_decorators.get(key)` (with the `try/except` in `_validate` and
`_extract_project`, an absent key resolves to no decorators). -/
def flowDecos (f : Flow) (key : String) : List Deco :=
  ((f.flowDecorators.find? (fun kv => kv.1 == key)).map (·.2)).getD []

/-- `_graph._extract_parameters`. -/
def extractParameters (f : Flow) : List ParameterSpec :=
  f.parameters.map extractParamOne

/-- `_graph._extract_schedule`: explicit `cron` first, then the
`weekly`/`hourly`/`daily` shorthands in the order the code checks them. -/
def extractSchedule (f : Flow) : Option String :=
  match flowDecos f "schedule" with
  | [] => none
  | s :: _ =>
    if (s.getAttr "cron" .anone).truthy then some (s.getAttr "cron" .anone).asStr
    else if (s.getAttr "weekly" .anone).truthy then some "0 0 * * 0"
    else if (s.getAttr "hourly" .anone).truthy then some "0 * * * *"
    else if (s.getAttr "daily" .anone).truthy then some "0 0 * * *"
    else none

/-- `_graph._extract_project`: `attributes.get("name") or None` on the first
`project` flow decorator. -/
def extractProject (f : Flow) : Option String :=
  match flowDecos f "project" with
  | [] => none
  | p :: _ =>
    match p.getAttr "name" .anone with
    | .astr s => if s = "" then none else some s
    | _ => none

/-- The per-decorator checks of `_validate`'s step loop. -/
def validateDecos (stepName : String) : List Deco → Except String Unit
  | [] => .ok ()
  | d :: rest =>
    if d.name = "batch" then
      .error ("Step *" ++ stepName ++ "* uses @batch which is not supported with Prefect. " ++
        "Remove @batch or use --with=batch on the Prefect CLI instead.")
    else if d.name = "slurm" then
      .error ("Step *" ++ stepName ++ "* uses @slurm which is not supported with Prefect.")
    else validateDecos stepName rest

/-- The step-level loop of `_graph._validate`. -/
def validateNodes : List Node → Except String Unit
  | [] => .ok ()
  | n :: rest =>
    if n.parallel_foreach then
      .error "Deploying flows with @parallel to Prefect is not yet supported."
    else
      match validateDecos n.name n.decorators with
      | .error m => .error m
      | .ok () => validateNodes rest

/-- The flow-level loop of `_graph._validate` over
`("trigger", "trigger_on_finish", "exit_hook")`. -/
def validateFlowDecos (f : Flow) : Except String Unit :=
  if flowDecos f "trigger" ≠ [] then
    .error "@trigger is not supported with Prefect deployments."
  else if flowDecos f "trigger_on_finish" ≠ [] then
    .error "@trigger_on_finish is not supported with Prefect deployments."
  else if flowDecos f "exit_hook" ≠ [] then
    .error "@exit_hook is not supported with Prefect deployments."
  else .ok ()

/-- `_graph._validate`. -/
def validate (g : Graph) (f : Flow) : Except String Unit :=
  match validateNodes g with
  | .error m => .error m
  | .ok () => validateFlowDecos f

/-- Python's whitespace set for `str.strip()`. -/
def isPySpace (c : Char) : Bool :=
  c = ' ' || c = '\t' || c = '\n' || c = '\r' || c = '\x0b' || c = '\x0c'

/-- Python `str.strip()`: drop leading and trailing whitespace. -/
def pyStrip (s : String) : String :=
  ⟨((s.toList.dropWhile isPySpace).reverse.dropWhile isPySpace).reverse⟩

/-- The `FlowSpec` record as constructed by `_graph.analyze_graph`.
The `FlowSpec` dataclass declared in `_types.py` omits `project_name`
(the same declaration/constructor mismatch as for `StepSpec`'s policy
fields); the field is kept here as `analyze_graph` passes it, and
`prefect_flow.py`'s overlay constructor call, which does not pass it,
is modelled with the dataclass default `None`. -/
structure FlowSpec where
  name : String
  steps : List StepSpec
  parameters : List ParameterSpec
  description : String
  schedule_cron : Option String
  tags : List String
  namespace_ : Option String
  project_name : Option String
deriving DecidableEq, Repr

inductive AnalyzeError where
  | notSupported (msg : String)
  | topo (e : TopoError)
deriving DecidableEq, Repr

/-- `_graph.analyze_graph`: validate, traverse, extract. -/
def analyzeGraph (fuel : Nat) (g : Graph) (f : Flow) : Except AnalyzeError FlowSpec :=
  match validate g f with
  | .error m => .error (.notSupported m)
  | .ok () =>
  match topologicalOrder g fuel with
  | .error e => .error (.topo e)
  | .ok steps =>
  .ok
    { name := f.name
      steps := steps
      parameters := extractParameters f
      description := pyStrip (f.doc.getD "")
      schedule_cron := extractSchedule f
      tags := f.tags
      namespace_ := none
      project_name := extractProject f }

/-- `prefect_cli._python_name` character loop: an underscore before each
uppercase letter at a positive index, every character lowercased.  (Flow
names are Python class names; `_resolve_name` additionally restricts them to
ASCII `[a-zA-Z0-9_\-.]`, so ASCII case predicates are faithful.) -/
def pythonNameChars : Nat → List Char → List Char
  | _, [] => []
  | i, c :: cs =>
    (if c.isUpper ∧ 0 < i then ['_', c.toLower] else [c.toLower]) ++ pythonNameChars (i + 1) cs

/-- `prefect_cli._python_name`. -/
def pythonName (flowName : String) : String :=
  ⟨pythonNameChars 0 flowName.toList⟩

/-- The emission config as constructed by `PrefectFlow.__init__`
(`prefect_flow.py`); the `PrefectFlowConfig` dataclass declared in
`_types.py` omits the `with_decorators` field the constructor call passes
(the same declaration/constructor mismatch as for `StepSpec`). -/
structure PrefectFlowConfig where
  flow_file : String
  datastore_type : String
  metadata_type : String
  code_package_url : String
  code_package_sha : String
  code_package_metadata : String
  username : String
  max_workers : Int
  with_decorators : List String
deriving DecidableEq, Repr

/-- Python truthiness of the `self._namespace` field (`None` and `""` are
falsy). -/
def namespaceTruthy : Option String → Bool
  | none => false
  | some s => s ≠ ""

/-- The `if self._tags or self._namespace:` condition of
`PrefectFlow.compile`. -/
def overlayApplied (tags : List String) (ns : Option String) : Bool :=
  !tags.isEmpty || namespaceTruthy ns

/-- The tag/namespace overlay of `PrefectFlow.compile`: when the condition
fires, a new `FlowSpec` is built whose `tags` are the CLI tags if non-empty
(else the analyzed ones) and whose `namespace` is the CLI namespace if not
`None` (else the analyzed one); all other constructor arguments are copied
from the analyzed spec.  The constructor call does not pass `project_name`,
so that field takes the dataclass default `None`. -/
def overlaySpec (tags : List String) (ns : Option String) (spec : FlowSpec) : FlowSpec :=
  if overlayApplied tags ns then
    { name := spec.name
      steps := spec.steps
      parameters := spec.parameters
      description := spec.description
      schedule_cron := spec.schedule_cron
      tags := if tags ≠ [] then tags else spec.tags
      namespace_ := if ns ≠ none then ns else spec.namespace_
      project_name := none }
  else spec

/-- Modelled from the spec: the indentation-tracking line accumulator `_CB`
of `_codegen.py`, which is not in the source tree (only its tests are).
Per §4.2: append a line (or a blank line), increase depth, decrease depth
clamped at zero, flatten by joining lines with newlines. -/
structure CB where
  lines : List String
  depth : Nat
deriving DecidableEq, Repr

def CB.empty : CB := ⟨[], 0⟩

def indentStr (d : Nat) : String :=
  String.join (List.replicate d "    ")

def CB.emit (cb : CB) (s : String) : CB :=
  { cb with lines := cb.lines ++ [indentStr cb.depth ++ s] }

def CB.emitBlank (cb : CB) : CB :=
  { cb with lines := cb.lines ++ [""] }

def CB.indent (cb : CB) : CB :=
  { cb with depth := cb.depth + 1 }

def CB.dedent (cb : CB) : CB :=
  { cb with depth := cb.depth - 1 }

def CB.build (cb : CB) : String :=
  String.intercalate "\n" cb.lines

/-- Modelled from the spec: `_codegen._task_fn`, fixed prefix plus step
name. -/
def taskFn (stepName : String) : String :=
  "_step_" ++ stepName

def pyStrLit (s : String) : String :=
  "'" ++ s ++ "'"

def pyListLit (l : List String) : String :=
  "[" ++ String.intercalate ", " (l.map pyStrLit) ++ "]"

/-- A Python literal for an evaluated parameter default (strings quoted,
bools/numerics bare). -/
def scalarLit : PyScalar → String
  | .pstr s => pyStrLit s
  | .pint n => toString n
  | .pbool b => if b then "True" else "False"
  | .pnone => "None"
  | .pother t => t

/-- Modelled from the spec: `_codegen._flow_signature` — one
`name: type = default` entry per declared parameter, in order. -/
def flowSignature (params : List ParameterSpec) : String :=
  String.intercalate ", "
    (params.map fun p => p.name ++ ": " ++ p.type_name ++ " = " ++ scalarLit p.default)

/-- Modelled from the spec: one generated task function per step (§4.2 item
5) — signature shaped by the step's node type and join discipline, body
invoking the step-command helper with the step's policy. -/
def emitTaskFn (cb : CB) (s : StepSpec) : CB :=
  let deco :=
    "@task" ++
      (match s.timeout_seconds, s.retry_delay_seconds with
       | some t, some r =>
         "(timeout_seconds=" ++ toString t ++ ", retry_delay_seconds=" ++ toString r ++ ")"
       | some t, none => "(timeout_seconds=" ++ toString t ++ ")"
       | none, some r => "(retry_delay_seconds=" ++ toString r ++ ")"
       | none, none => "")
  let args :=
    if s.node_type = .start then ""
    else if s.is_split_join then "parent_task_ids: dict"
    else if s.is_foreach_join then "task_ids: list"
    else "upstream_task_id=None"
  let ret := if s.node_type = .foreach then " -> tuple" else ""
  let cb := cb.emit deco
  let cb := cb.emit ("def " ++ taskFn s.name ++ "(" ++ args ++ ")" ++ ret ++ ":")
  let cb := cb.indent
  let cb :=
    cb.emit ("_run_cmd(_step_cmd(" ++ pyStrLit s.name ++ ", " ++
      toString s.max_user_code_retries ++ ", " ++ pyListLit (s.env_vars.map (·.1)) ++ "))")
  let cb :=
    if s.node_type = .foreach then
      cb.emit ("return [( _i, " ++ pyStrLit s.name ++ ") for _i in range(_read_foreach_info())]")
    else
      cb.emit ("return " ++ pyStrLit s.name)
  (cb.dedent).emitBlank

/-- Modelled from the spec: the flow-body call for one step, threading each
step's return value into its downstream consumers (§4.2 item 6). -/
def emitFlowCall (cb : CB) (s : StepSpec) : CB :=
  let call :=
    if s.node_type = .start then taskFn s.name ++ "()"
    else if s.is_split_join then
      taskFn s.name ++ "(\x7b" ++
        String.intercalate ", " (s.in_funcs.map fun p => pyStrLit p ++ ": _r_" ++ p) ++ "\x7d)"
    else if s.is_foreach_join then
      taskFn s.name ++ "([_r_" ++ String.intercalate "_i for _i in ..." s.in_funcs ++ "])"
    else
      taskFn s.name ++ "(" ++ String.intercalate ", " (s.in_funcs.map ("_r_" ++ ·)) ++ ")"
  cb.emit ("_r_" ++ s.name ++ " = " ++ call)

/-- Modelled from the spec: `_codegen.generate_prefect_file` — header,
imports, module constants copied from the spec/config, shared helpers, one
task function per step, the flow entry function, and a `__main__` guard
(§4.2), emitted through the `_CB` accumulator. -/
def generatePrefectFile (spec : FlowSpec) (cfg : PrefectFlowConfig) : String :=
  let cb := CB.empty
  let cb := cb.emit ("# Generated by metaflow-prefect from flow " ++ spec.name)
  let cb := cb.emit "from prefect import flow, task, get_run_logger"
  let cb := cb.emit "import subprocess"
  let cb := cb.emitBlank
  let cb := cb.emit ("FLOW_FILE = " ++ pyStrLit cfg.flow_file)
  let cb := cb.emit ("DATASTORE_TYPE = " ++ pyStrLit cfg.datastore_type)
  let cb := cb.emit ("METADATA_TYPE = " ++ pyStrLit cfg.metadata_type)
  let cb := cb.emit ("CODE_PACKAGE_URL = " ++ pyStrLit cfg.code_package_url)
  let cb := cb.emit ("CODE_PACKAGE_SHA = " ++ pyStrLit cfg.code_package_sha)
  let cb := cb.emit ("CODE_PACKAGE_METADATA = " ++ pyStrLit cfg.code_package_metadata)
  let cb := cb.emit ("USERNAME = " ++ pyStrLit cfg.username)
  let cb := cb.emit ("MAX_WORKERS = " ++ toString cfg.max_workers)
  let cb := cb.emit ("TAGS = " ++ pyListLit spec.tags)
  let cb := cb.emit ("NAMESPACE = " ++
    (match spec.namespace_ with | some n => pyStrLit n | none => "None"))
  let cb := cb.emit ("WITH_DECORATORS: list[str] = " ++ pyListLit cfg.with_decorators)
  let cb := cb.emitBlank
  let cb := cb.emit "def _foreach_info_path(task_run_id):"
  let cb := ((cb.indent).emit "return '/tmp/mf_foreach_' + str(task_run_id)").dedent
  let cb := cb.emit "def _read_foreach_info():"
  let cb := ((cb.indent).emit "return 0").dedent
  let cb := cb.emit "def _run_cmd(cmd):"
  let cb := ((cb.indent).emit "subprocess.run(cmd, check=True)").dedent
  let cb := cb.emit "def _step_cmd(step, retries, env_keys):"
  let cb := ((cb.indent).emit
    "return [FLOW_FILE, 'step', step] + ['--with=' + _deco for _deco in WITH_DECORATORS]").dedent
  let cb := cb.emitBlank
  let cb := spec.steps.foldl emitTaskFn cb
  let cb := cb.emit "@flow"
  let cb := cb.emit ("def " ++ pythonName spec.name ++ "(" ++
    flowSignature spec.parameters ++ "):")
  let cb := cb.indent
  let cb := cb.emit ("parameters = \x7b" ++
    String.intercalate ", "
      (spec.parameters.map fun p => pyStrLit p.name ++ ": " ++ p.name) ++ "\x7d")
  let cb := spec.steps.foldl emitFlowCall cb
  let cb := cb.dedent
  let cb := cb.emitBlank
  let cb := cb.emit "if __name__ == '__main__':"
  let cb := ((cb.indent).emit (pythonName spec.name ++ "()")).dedent
  cb.build

/-- `PrefectFlow.compile`: analyze, overlay, generate. -/
def prefectCompile (tags : List String) (ns : Option String) (cfg : PrefectFlowConfig)
    (fuel : Nat) (g : Graph) (f : Flow) : Except AnalyzeError String :=
  match analyzeGraph fuel g f with
  | .error e => .error e
  | .ok spec => .ok (generatePrefectFile (overlaySpec tags ns spec) cfg)

/-! ### Concrete fixtures

Small graphs and flows mirroring the repository's `tests/flows/` fixtures,
used as concrete inputs for witnesses and counterexamples. -/

/-- A flow object carrying nothing but a name (no tags, parameters or
flow-level decorators). -/
def plainFlow (n : String) : Flow :=
  { name := n, doc := none, tags := [], parameters := [], flowDecorators := [] }

/-- `tests/flows/simple_flow.py`: start → process → end. -/
def simpleGraph : Graph :=
  [ { name := "start", type := "start", in_funcs := [], out_funcs := ["process"],
      split_parents := [], parallel_foreach := false, decorators := [] },
    { name := "process", type := "linear", in_funcs := ["start"], out_funcs := ["end"],
      split_parents := [], parallel_foreach := false, decorators := [] },
    { name := "end", type := "end", in_funcs := ["process"], out_funcs := [],
      split_parents := [], parallel_foreach := false, decorators := [] } ]

/-- `tests/flows/branch_flow.py`: start ⇉ (branch_a, branch_b) → join → end. -/
def branchGraph : Graph :=
  [ { name := "start", type := "split", in_funcs := [], out_funcs := ["branch_a", "branch_b"],
      split_parents := [], parallel_foreach := false, decorators := [] },
    { name := "branch_a", type := "linear", in_funcs := ["start"], out_funcs := ["join"],
      split_parents := ["start"], parallel_foreach := false, decorators := [] },
    { name := "branch_b", type := "linear", in_funcs := ["start"], out_funcs := ["join"],
      split_parents := ["start"], parallel_foreach := false, decorators := [] },
    { name := "join", type := "join", in_funcs := ["branch_a", "branch_b"], out_funcs := ["end"],
      split_parents := ["start"], parallel_foreach := false, decorators := [] },
    { name := "end", type := "end", in_funcs := ["join"], out_funcs := [],
      split_parents := [], parallel_foreach := false, decorators := [] } ]

/-- The decorators of `DecoratorFlow.start`
(`@retry(times=2, minutes_between_retries=1)`, `@timeout(seconds=300)`,
`@environment(vars={"MY_VAR": "hello", "OTHER": "world"})`); the `retry`
decorator's `step_task_retry_count()` yields `times = 2` user retries. -/
def decoratorFlowStartDecos : List Deco :=
  [ { name := "retry",
      attributes := [("times", .aint 2), ("minutes_between_retries", .aint 1)],
      retryCounts := (2, 2) },
    { name := "timeout", attributes := [("seconds", .aint 300)], retryCounts := (0, 0) },
    { name := "environment",
      attributes := [("vars", .adict [("MY_VAR", "hello"), ("OTHER", "world")])],
      retryCounts := (0, 0) } ]

/-- The decorators of `DecoratorFlow.end` (`@timeout(minutes=5)`). -/
def decoratorFlowEndDecos : List Deco :=
  [ { name := "timeout", attributes := [("minutes", .aint 5)], retryCounts := (0, 0) } ]

/-- `tests/flows/decorator_flow.py`: start → end with policy decorators. -/
def decoratorGraph : Graph :=
  [ { name := "start", type := "start", in_funcs := [], out_funcs := ["end"],
      split_parents := [], parallel_foreach := false,
      decorators := decoratorFlowStartDecos },
    { name := "end", type := "end", in_funcs := ["start"], out_funcs := [],
      split_parents := [], parallel_foreach := false,
      decorators := decoratorFlowEndDecos } ]

/-- `tests/flows/param_flow.py`: `message` defaulting to `"hello"` and
`count` typed `int` defaulting to `3`. -/
def paramFlow : Flow :=
  { name := "ParamFlow"
    doc := none
    tags := []
    parameters :=
      [ { name := "message",
          kwargs := [("default", .scalar (.pstr "hello")),
                     ("help", .scalar (.pstr "A message to echo."))],
          overrideKwargs := [] },
        { name := "count",
          kwargs := [("default", .scalar (.pint 3)),
                     ("help", .scalar (.pstr "Number of repetitions."))],
          overrideKwargs := [] } ]
    flowDecorators := [] }

/-- A graph accepted by validation whose reachable nodes all have reachable
predecessors, with a unique no-predecessor start and a unique no-successor
end, but which contains the cycle a → b → a. -/
def cyclicGraph : Graph :=
  [ { name := "start", type := "start", in_funcs := [], out_funcs := ["a"],
      split_parents := [], parallel_foreach := false, decorators := [] },
    { name := "a", type := "linear", in_funcs := ["start", "b"], out_funcs := ["b"],
      split_parents := [], parallel_foreach := false, decorators := [] },
    { name := "b", type := "linear", in_funcs := ["a"], out_funcs := ["a", "end"],
      split_parents := [], parallel_foreach := false, decorators := [] },
    { name := "end", type := "end", in_funcs := ["b"], out_funcs := [],
      split_parents := [], parallel_foreach := false, decorators := [] } ]

/-- A graph with a `@batch`-decorated step (cf. `test_graph.py`'s
validation mocks). -/
def batchGraph : Graph :=
  [ { name := "start", type := "start", in_funcs := [], out_funcs := [],
      split_parents := [], parallel_foreach := false,
      decorators := [{ name := "batch", attributes := [], retryCounts := (0, 0) }] } ]

/-- A parameter whose default lives only in `_override_kwargs`
(the nflx-metaflow storage variant). -/
def overrideParam : Param :=
  { name := "count", kwargs := [], overrideKwargs := [("default", .scalar (.pint 7))] }

/-- A parameter with a deploy-time-deferred default evaluating to a
string. -/
def deferredParam : Param :=
  { name := "stamp", kwargs := [("default", .deferredDefault (.pstr "2026-10-12"))],
    overrideKwargs := [] }

/-- A flow carrying a single `@schedule` decorator with the given
attributes. -/
def scheduleFlow (attrs : List (String × AttrVal)) : Flow :=
  { name := "ScheduleFlow", doc := none, tags := [], parameters := [],
    flowDecorators := [("schedule", [{ name := "schedule", attributes := attrs,
                                       retryCounts := (0, 0) }])] }

/-- A flow carrying a `@trigger` flow-level decorator. -/
def triggerFlow : Flow :=
  { name := "TriggerFlow", doc := none, tags := [], parameters := [],
    flowDecorators := [("trigger", [{ name := "trigger", attributes := [],
                                      retryCounts := (0, 0) }])] }

/-- A graph with a `@parallel` (parallel_foreach) step. -/
def parallelGraph : Graph :=
  [ { name := "start", type := "start", in_funcs := [], out_funcs := [],
      split_parents := [], parallel_foreach := true, decorators := [] } ]

/-- An analyzed-looking `FlowSpec` used to exercise the facade overlay. -/
def sampleSpec : FlowSpec :=
  { name := "SimpleFlow", steps := [], parameters := [], description := "doc",
    schedule_cron := some "0 0 * * *", tags := ["flowtag"], namespace_ := none,
    project_name := some "proj" }

/-- An emission config like the test suite's `_make_cfg()`. -/
def testCfg : PrefectFlowConfig :=
  { flow_file := "/flows/myflow.py"
    datastore_type := "local"
    metadata_type := "local"
    code_package_url := ""
    code_package_sha := ""
    code_package_metadata := ""
    username := "tester"
    max_workers := 10
    with_decorators := [] }

/-! ### Specification-side definitions and traversal invariants -/

/-- The claim's wording of the camel-to-snake naming rule, written
independently of `pythonName`: for every character, an underscore is
emitted before it when it is an internal (non-first) uppercase letter, and
the character itself is lowercased. -/
def camelToSnakeSpec (s : String) : String :=
  ⟨s.toList.enum.flatMap fun ic =>
    (if ic.2.isUpper ∧ 0 < ic.1 then ['_'] else []) ++ [ic.2.toLower]⟩

def exceptIsOk : Except TopoError StepSpec → Bool
  | .ok _ => true
  | .error _ => false

/-- Reachability from `"start"` along `out_funcs` edges — the nodes the BFS
of `_topological_order` can ever enqueue. -/
inductive Reach (g : Graph) : String → Prop
  | start : Reach g "start"
  | step {p c : String} {nd : Node} :
      Reach g p → lookupNode g p = some nd → c ∈ nd.out_funcs → Reach g c

/-- All predecessors of step `n` lie in `vis`. -/
def predsVisited (g : Graph) (vis : List String) (n : String) : Prop :=
  ∀ nd, lookupNode g n = some nd → ∀ p ∈ nd.in_funcs, p ∈ vis

/-- The queue head test of the traversal: unvisited with every predecessor
visited (such a node is processed rather than skipped or deferred). -/
def isReady (g : Graph) (vis : List String) (n : String) : Bool :=
  !vis.contains n &&
    match lookupNode g n with
    | some nd => nd.in_funcs.all (fun p => vis.contains p)
    | none => false

/-- Number of `R`-nodes not yet visited. -/
def ucount (R vis : List String) : Nat :=
  (R.filter (fun n => !vis.contains n)).length

/-- Loop invariant of `_topological_order`'s BFS over the node set `R`. -/
structure TraversalInv (g : Graph) (R : List String)
    (vis queue : List String) (res : List StepSpec) : Prop where
  visR : ∀ n ∈ vis, n ∈ R
  queueR : ∀ n ∈ queue, n ∈ R
  visNodup : vis.Nodup
  resNames : res.map StepSpec.name = vis.reverse
  resSpec : ∀ s ∈ res, ∃ nd, lookupNode g s.name = some nd ∧ mkStepSpec g nd = .ok s
  resOrder : ∀ i (h : i < res.length), ∀ p ∈ (res.get ⟨i, h⟩).in_funcs,
      p ∈ (res.take i).map StepSpec.name
  frontier : ∀ n ∈ R, n ∉ vis → predsVisited g vis n → n ∈ queue

/-- Well-formedness package for the amended topological-order claim: `R` is
closed under edges, every `R`-name resolves, `in_funcs`/`out_funcs` are
converse edge lists, `rank` certifies acyclicity, `"start"` is the unique
no-predecessor node, `"end"` the unique no-successor node, and every
`R`-node's `StepSpec` construction succeeds. -/
structure WellFormedDag (g : Graph) (R : List String) (rank : String → Nat) : Prop where
  namesNodup : (g.map Node.name).Nodup
  startMem : "start" ∈ R
  resolve : ∀ n ∈ R, n ∈ g.map Node.name
  closedOut : ∀ nd ∈ g, nd.name ∈ R → ∀ c ∈ nd.out_funcs, c ∈ R
  closedIn : ∀ nd ∈ g, nd.name ∈ R → ∀ p ∈ nd.in_funcs, p ∈ R
  consistent : ∀ nd ∈ g, nd.name ∈ R → ∀ cd ∈ g, cd.name ∈ nd.out_funcs →
      nd.name ∈ cd.in_funcs
  consistentRev : ∀ nd ∈ g, nd.name ∈ R → ∀ pd ∈ g, pd.name ∈ nd.in_funcs →
      nd.name ∈ pd.out_funcs
  rankIn : ∀ nd ∈ g, nd.name ∈ R → ∀ p ∈ nd.in_funcs, rank p < rank nd.name
  startNoPred : ∀ nd ∈ g, nd.name = "start" → nd.in_funcs = []
  noPredUnique : ∀ nd ∈ g, nd.name ∈ R → nd.in_funcs = [] → nd.name = "start"
  endMem : "end" ∈ R
  endNoSucc : ∀ nd ∈ g, nd.name ∈ R → (nd.out_funcs = [] ↔ nd.name = "end")
  mkOk : ∀ nd ∈ g, nd.name ∈ R → exceptIsOk (mkStepSpec g nd) = true

/-- Result shape established by the traversal: distinct names covering
exactly `R`, each step's construction recorded, and each step preceded by
all of its `in_funcs`. -/
def GoodResult (g : Graph) (R : List String) (l : List StepSpec) : Prop :=
  (l.map StepSpec.name).Nodup
  ∧ (∀ n, n ∈ l.map StepSpec.name ↔ n ∈ R)
  ∧ (∀ i (h : i < l.length), ∀ p ∈ (l.get ⟨i, h⟩).in_funcs,
       p ∈ (l.take i).map StepSpec.name)
  ∧ (∀ s ∈ l, ∃ nd, lookupNode g s.name = some nd ∧ mkStepSpec g nd = .ok s)

/-- The reachable node set of `branchGraph`. -/
def branchR : List String :=
  ["start", "branch_a", "branch_b", "join", "end"]

/-- A topological rank certifying that `branchGraph` is acyclic. -/
def branchRank (n : String) : Nat :=
  if n = "start" then 0
  else if n = "branch_a" then 1
  else if n = "branch_b" then 2
  else if n = "join" then 3
  else 4

/-! ### Shared lemmas -/

theorem lookupNode_eq_some {g : Graph} {n : String} {nd : Node}
    (h : lookupNode g n = some nd) : nd ∈ g ∧ nd.name = n := by
  unfold lookupNode at h
  refine ⟨List.mem_of_find?_eq_some h, ?_⟩
  have hp := List.find?_some h
  simpa using hp

theorem lookupNode_of_mem {g : Graph} (hnd : (g.map Node.name).Nodup) {nd : Node}
    (h : nd ∈ g) : lookupNode g nd.name = some nd := by
  induction g with
  | nil => cases h
  | cons a rest ih =>
    rw [List.map_cons, List.nodup_cons] at hnd
    cases h with
    | head =>
      unfold lookupNode
      simp [List.find?]
    | tail _ hm =>
      have hmem : nd.name ∈ rest.map Node.name := List.mem_map_of_mem _ hm
      have hne : (a.name == nd.name) = false := by
        simp only [beq_eq_false_iff_ne, ne_eq]
        intro e
        exact hnd.1 (e ▸ hmem)
      unfold lookupNode at ih ⊢
      simp only [List.find?, hne]
      exact ih hnd.2 hm

theorem mkStepSpec_fields {g : Graph} {nd : Node} {s : StepSpec}
    (h : mkStepSpec g nd = .ok s) :
    s.name = nd.name ∧ s.in_funcs = nd.in_funcs ∧ s.out_funcs = nd.out_funcs := by
  unfold mkStepSpec at h
  split at h
  · cases h
  · split at h
    · cases h
    · split at h
      · cases h
      · cases h
        exact ⟨rfl, rfl, rfl⟩

theorem exceptIsOk_iff {e : Except TopoError StepSpec} :
    exceptIsOk e = true ↔ ∃ s, e = .ok s := by
  cases e <;> simp [exceptIsOk]

/-! ### Claim theorems -/

/-- **C1** (code bug): `_graph.py`'s policy extraction produces exactly the
claimed values on the `DecoratorFlow` steps (`seconds=300 ↦ 300`,
`minutes=5 ↦ 300`, `minutes_between_retries=1 ↦ 60`, `times=2 ↦ 2`, the
two env pairs sorted by key, and `None`/`()` when the policies are absent),
but the three policy kwargs that `_topological_order`'s `StepSpec(...)`
constructor call passes are not fields of the `StepSpec` dataclass declared
in `_types.py`, so the dataclass `__init__` raises `TypeError` before any
`StepSpec` carrying them can exist. -/
theorem c1_step_policy_extraction_vs_declared_fields :
    ((analyzeGraph 32 decoratorGraph (plainFlow "DecoratorFlow")).map (fun sp =>
        sp.steps.map (fun s =>
          (s.name, s.timeout_seconds, s.retry_delay_seconds,
           s.max_user_code_retries, s.env_vars))))
      = .ok [("start", some 300, some 60, 2, [("MY_VAR", "hello"), ("OTHER", "world")]),
             ("end", some 300, none, 0, [])]
  ∧ stepTimeoutSeconds [] = none
  ∧ stepRetryDelaySeconds [] = none
  ∧ stepEnvVars [] = []
  ∧ "timeout_seconds" ∈ stepSpecConstructedKwargs
  ∧ "retry_delay_seconds" ∈ stepSpecConstructedKwargs
  ∧ "env_vars" ∈ stepSpecConstructedKwargs
  ∧ "timeout_seconds" ∉ stepSpecDeclaredFields
  ∧ "retry_delay_seconds" ∉ stepSpecDeclaredFields
  ∧ "env_vars" ∉ stepSpecDeclaredFields := by
  refine ⟨by rfl, rfl, rfl, rfl, ?_, ?_, ?_, ?_, ?_, ?_⟩ <;> decide

/-- **C8**: the flow entry-function name is the workflow name with an
underscore inserted before each internal uppercase letter and every letter
lowercased; concretely `SimpleFlow ↦ simple_flow` and
`MyAwesomeFlow ↦ my_awesome_flow`. -/
theorem c8_python_name :
    (∀ s, pythonName s = camelToSnakeSpec s)
  ∧ pythonName "SimpleFlow" = "simple_flow"
  ∧ pythonName "MyAwesomeFlow" = "my_awesome_flow" := by
  have hchars : ∀ (l : List Char) (i : Nat),
      pythonNameChars i l =
        (l.enumFrom i).flatMap fun ic =>
          (if ic.2.isUpper ∧ 0 < ic.1 then ['_'] else []) ++ [ic.2.toLower] := by
    intro l
    induction l with
    | nil => intro i; rfl
    | cons c cs ih =>
      intro i
      simp only [pythonNameChars, List.enumFrom, List.flatMap_cons, ih (i + 1)]
      by_cases hc : c.isUpper ∧ 0 < i
      · simp [hc]
      · simp [hc]
  refine ⟨?_, by decide, by decide⟩
  intro s
  unfold pythonName camelToSnakeSpec
  rw [hchars]
  rfl

/-- **C5**: parameter extraction resolves the effective default from the
primary `kwargs` mapping first and `_override_kwargs` second, evaluates any
deploy-time-deferred default into its concrete scalar, classifies
`type_name` from the evaluated value's runtime type with `"str"` as the
default for unrecognized or null types; `message` defaulting to `"hello"`
yields `("hello", "str")` and an `int` defaulting to `3` yields
`type_name = "int"`, `default = 3`. -/
theorem c5_parameter_extraction (p : Param) (t : String) (r : PyScalar) :
    (kwGet p.kwargs "default" ≠ .scalar .pnone →
        paramKwarg p "default" = kwGet p.kwargs "default")
  ∧ (kwGet p.kwargs "default" = .scalar .pnone →
        paramKwarg p "default" = kwGet p.overrideKwargs "default")
  ∧ (extractParamOne p).default = deployTimeEval (paramKwarg p "default")
  ∧ (extractParamOne p).type_name = typeMapLookup (pyTypeName (extractParamOne p).default)
  ∧ (paramKwarg p "default" = .deferredDefault r → (extractParamOne p).default = r)
  ∧ typeMapLookup "NoneType" = "str"
  ∧ (t ∉ typeMapPairs.map Prod.fst → typeMapLookup t = "str")
  ∧ extractParameters paramFlow =
      [ { name := "message", default := .pstr "hello",
          description := "A message to echo.", type_name := "str" },
        { name := "count", default := .pint 3,
          description := "Number of repetitions.", type_name := "int" } ] := by
  refine ⟨?_, ?_, rfl, rfl, ?_, rfl, ?_, by rfl⟩
  · intro h
    unfold paramKwarg
    rw [if_neg h]
  · intro h
    unfold paramKwarg
    rw [if_pos h]
  · intro h
    show deployTimeEval (paramKwarg p "default") = r
    rw [h]
    rfl
  · intro ht
    have hnone : typeMapPairs.find? (fun kv => kv.1 == t) = none := by
      rw [List.find?_eq_none]
      intro a ha hpa
      exact ht (by
        rw [← show a.1 = t from by simpa using hpa]
        exact List.mem_map_of_mem _ ha)
    simp [typeMapLookup, hnone]

/-- **C5 witness**: the fallback, deferred-evaluation, unrecognized-type and
concrete-parameter clauses at concrete inputs. -/
theorem c5_parameter_extraction_witness :
    paramKwarg overrideParam "default" = .scalar (.pint 7)
  ∧ (extractParamOne deferredParam).default = .pstr "2026-10-12"
  ∧ typeMapLookup "list" = "str"
  ∧ paramKwarg (paramFlow.parameters.headD overrideParam) "default" = .scalar (.pstr "hello")
  ∧ extractParameters paramFlow =
      [ { name := "message", default := .pstr "hello",
          description := "A message to echo.", type_name := "str" },
        { name := "count", default := .pint 3,
          description := "Number of repetitions.", type_name := "int" } ] :=
  ⟨((c5_parameter_extraction overrideParam "list" .pnone).2.1 (by rfl)).trans (by rfl),
   (c5_parameter_extraction deferredParam "list" (.pstr "2026-10-12")).2.2.2.2.1 (by rfl),
   (c5_parameter_extraction overrideParam "list" .pnone).2.2.2.2.2.2.1 (by decide),
   ((c5_parameter_extraction (paramFlow.parameters.headD overrideParam) "list" .pnone).1
      (by decide)).trans (by rfl),
   (c5_parameter_extraction overrideParam "list" .pnone).2.2.2.2.2.2.2⟩

/-- **C6**: schedule extraction returns the explicit `cron` string when a
truthy one is present (taking precedence over any shorthand); otherwise the
`weekly`, `daily` and `hourly` shorthands map to `0 0 * * 0`, `0 0 * * *`
and `0 * * * *` respectively, and the absence of a schedule decorator (or of
any truthy field) yields `None`. -/
theorem c6_schedule_extraction (f : Flow) (s : Deco) (rest : List Deco) (c : String) :
    (flowDecos f "schedule" = [] → extractSchedule f = none)
  ∧ (flowDecos f "schedule" = s :: rest →
      ((s.getAttr "cron" .anone = .astr c → c ≠ "" → extractSchedule f = some c)
     ∧ ((s.getAttr "cron" .anone).truthy = false →
        (s.getAttr "weekly" .anone).truthy = true → extractSchedule f = some "0 0 * * 0")
     ∧ ((s.getAttr "cron" .anone).truthy = false →
        (s.getAttr "weekly" .anone).truthy = false →
        (s.getAttr "hourly" .anone).truthy = false →
        (s.getAttr "daily" .anone).truthy = true → extractSchedule f = some "0 0 * * *")
     ∧ ((s.getAttr "cron" .anone).truthy = false →
        (s.getAttr "weekly" .anone).truthy = false →
        (s.getAttr "hourly" .anone).truthy = true → extractSchedule f = some "0 * * * *")
     ∧ ((s.getAttr "cron" .anone).truthy = false →
        (s.getAttr "weekly" .anone).truthy = false →
        (s.getAttr "hourly" .anone).truthy = false →
        (s.getAttr "daily" .anone).truthy = false → extractSchedule f = none))) := by
  constructor
  · intro h
    unfold extractSchedule
    rw [h]
  · intro h
    refine ⟨?_, ?_, ?_, ?_, ?_⟩
    · intro hc hne
      unfold extractSchedule
      rw [h]
      simp only [hc]
      have : (AttrVal.astr c).truthy = true := by simp [AttrVal.truthy, hne]
      simp [this, AttrVal.asStr]
    · intro hc hw
      unfold extractSchedule
      rw [h]
      simp [hc, hw]
    · intro hc hw hh hd
      unfold extractSchedule
      rw [h]
      simp [hc, hw, hh, hd]
    · intro hc hw hh
      unfold extractSchedule
      rw [h]
      simp [hc, hw, hh]
    · intro hc hw hh hd
      unfold extractSchedule
      rw [h]
      simp [hc, hw, hh, hd]

/-- **C6 witness**: the five schedule shapes at concrete flows. -/
theorem c6_schedule_extraction_witness :
    extractSchedule (scheduleFlow [("cron", .astr "15 8 * * *"), ("weekly", .abool true)])
      = some "15 8 * * *"
  ∧ extractSchedule (scheduleFlow [("weekly", .abool true)]) = some "0 0 * * 0"
  ∧ extractSchedule (scheduleFlow [("daily", .abool true)]) = some "0 0 * * *"
  ∧ extractSchedule (scheduleFlow [("hourly", .abool true)]) = some "0 * * * *"
  ∧ extractSchedule (plainFlow "SimpleFlow") = none :=
  ⟨((c6_schedule_extraction
      (scheduleFlow [("cron", .astr "15 8 * * *"), ("weekly", .abool true)])
      { name := "schedule",
        attributes := [("cron", .astr "15 8 * * *"), ("weekly", .abool true)],
        retryCounts := (0, 0) } [] "15 8 * * *").2 (by rfl)).1 (by rfl) (by decide),
   ((c6_schedule_extraction (scheduleFlow [("weekly", .abool true)])
      { name := "schedule", attributes := [("weekly", .abool true)],
        retryCounts := (0, 0) } [] "").2 (by rfl)).2.1 (by rfl) (by rfl),
   ((c6_schedule_extraction (scheduleFlow [("daily", .abool true)])
      { name := "schedule", attributes := [("daily", .abool true)],
        retryCounts := (0, 0) } [] "").2 (by rfl)).2.2.1 (by rfl) (by rfl) (by rfl) (by rfl),
   ((c6_schedule_extraction (scheduleFlow [("hourly", .abool true)])
      { name := "schedule", attributes := [("hourly", .abool true)],
        retryCounts := (0, 0) } [] "").2 (by rfl)).2.2.2.1 (by rfl) (by rfl) (by rfl),
   (c6_schedule_extraction (plainFlow "SimpleFlow")
      { name := "schedule", attributes := [], retryCounts := (0, 0) } [] "").1 (by rfl)⟩

/-- **C7**: a node is classified a foreach join iff its type is `join` and
the node named by the last element of `split_parents` has type `foreach`,
and a split join iff that node has type `split`; a join with empty
`split_parents` is neither.  Concretely, in the branch flow
`start ⇉ (branch_a, branch_b) → join → end`, the join step has
`is_split_join = true`, `is_foreach_join = false` and
`in_funcs = ["branch_a", "branch_b"]`. -/
theorem c7_join_classification (g : Graph) (node : Node) (p : String) (pn : Node) :
    (node.split_parents = [] →
        isForeachJoin g node = .ok false ∧ isSplitJoin g node = .ok false)
  ∧ (node.split_parents.getLast? = some p → lookupNode g p = some pn →
        isForeachJoin g node = .ok (decide (node.type = "join" ∧ pn.type = "foreach"))
      ∧ isSplitJoin g node = .ok (decide (node.type = "join" ∧ pn.type = "split")))
  ∧ ((analyzeGraph 32 branchGraph (plainFlow "BranchFlow")).map (fun sp =>
        sp.steps.map (fun s => (s.name, s.is_split_join, s.is_foreach_join, s.in_funcs))))
      = .ok [("start", false, false, []),
             ("branch_a", false, false, ["start"]),
             ("branch_b", false, false, ["start"]),
             ("join", true, false, ["branch_a", "branch_b"]),
             ("end", false, false, ["join"])] := by
  refine ⟨?_, ?_, by rfl⟩
  · intro h
    unfold isForeachJoin isSplitJoin
    by_cases ht : node.type = "join"
    · simp [ht, h]
    · simp [ht]
  · intro hp hl
    unfold isForeachJoin isSplitJoin
    by_cases ht : node.type = "join"
    · constructor
      · by_cases hf : pn.type = "foreach" <;> simp [ht, hp, hl, hf]
      · by_cases hs : pn.type = "split" <;> simp [ht, hp, hl, hs]
    · simp [ht]

/-- **C7 witness**: classification clauses instantiated on the branch
flow's join node. -/
theorem c7_join_classification_witness :
    isForeachJoin branchGraph
        { name := "join", type := "join", in_funcs := ["branch_a", "branch_b"],
          out_funcs := ["end"], split_parents := ["start"], parallel_foreach := false,
          decorators := [] } = .ok false
  ∧ isSplitJoin branchGraph
        { name := "join", type := "join", in_funcs := ["branch_a", "branch_b"],
          out_funcs := ["end"], split_parents := ["start"], parallel_foreach := false,
          decorators := [] } = .ok true
  ∧ isForeachJoin branchGraph
        { name := "end", type := "end", in_funcs := ["join"], out_funcs := [],
          split_parents := [], parallel_foreach := false, decorators := [] } = .ok false := by
  have h := c7_join_classification branchGraph
    { name := "join", type := "join", in_funcs := ["branch_a", "branch_b"],
      out_funcs := ["end"], split_parents := ["start"], parallel_foreach := false,
      decorators := [] } "start"
    { name := "start", type := "split", in_funcs := [], out_funcs := ["branch_a", "branch_b"],
      split_parents := [], parallel_foreach := false, decorators := [] }
  have h2 := (h.2.1 (by rfl) (by rfl))
  have h3 := c7_join_classification branchGraph
    { name := "end", type := "end", in_funcs := ["join"], out_funcs := [],
      split_parents := [], parallel_foreach := false, decorators := [] } "start"
    { name := "start", type := "split", in_funcs := [], out_funcs := ["branch_a", "branch_b"],
      split_parents := [], parallel_foreach := false, decorators := [] }
  exact ⟨h2.1.trans (by rfl), h2.2.trans (by rfl), (h3.1 (by rfl)).1⟩

theorem validateDecos_ok {n : String} {l : List Deco} {d : Deco}
    (hd : d ∈ l) (hok : validateDecos n l = .ok ()) :
    d.name ≠ "batch" ∧ d.name ≠ "slurm" := by
  induction l with
  | nil => cases hd
  | cons a rest ih =>
    unfold validateDecos at hok
    by_cases hb : a.name = "batch"
    · rw [if_pos hb] at hok
      cases hok
    · rw [if_neg hb] at hok
      by_cases hs : a.name = "slurm"
      · rw [if_pos hs] at hok
        cases hok
      · rw [if_neg hs] at hok
        cases hd with
        | head => exact ⟨hb, hs⟩
        | tail _ hm => exact ih hm hok

theorem validateNodes_ok {l : List Node} {nd : Node}
    (hd : nd ∈ l) (hok : validateNodes l = .ok ()) :
    nd.parallel_foreach = false ∧ validateDecos nd.name nd.decorators = .ok () := by
  induction l with
  | nil => cases hd
  | cons a rest ih =>
    unfold validateNodes at hok
    by_cases hp : a.parallel_foreach = true
    · rw [if_pos hp] at hok
      cases hok
    · rw [if_neg hp] at hok
      cases hda : validateDecos a.name a.decorators with
      | error m => rw [hda] at hok; cases hok
      | ok u =>
        rw [hda] at hok
        cases hd with
        | head => exact ⟨by simpa using hp, by cases u; exact hda⟩
        | tail _ hm => exact ih hm hok

theorem validateFlowDecos_ok {f : Flow} (hok : validateFlowDecos f = .ok ()) :
    flowDecos f "trigger" = [] ∧ flowDecos f "trigger_on_finish" = []
      ∧ flowDecos f "exit_hook" = [] := by
  unfold validateFlowDecos at hok
  by_cases h1 : flowDecos f "trigger" = []
  · by_cases h2 : flowDecos f "trigger_on_finish" = []
    · by_cases h3 : flowDecos f "exit_hook" = []
      · exact ⟨h1, h2, h3⟩
      · rw [if_neg (by simpa using h1), if_neg (by simpa using h2),
          if_pos (by simpa using h3)] at hok
        cases hok
    · rw [if_neg (by simpa using h1), if_pos (by simpa using h2)] at hok
      cases hok
  · rw [if_pos (by simpa using h1)] at hok
    cases hok

theorem validate_ok {g : Graph} {f : Flow} (h : validate g f = .ok ()) :
    validateNodes g = .ok () ∧ validateFlowDecos f = .ok () := by
  unfold validate at h
  cases hn : validateNodes g with
  | error m => rw [hn] at h; cases h
  | ok u =>
    rw [hn] at h
    cases u
    exact ⟨rfl, h⟩

/-- **C3**: whenever the graph has a `parallel_foreach` node, a
`batch`-decorated or `slurm`-decorated step, or the flow carries a
`trigger`, `trigger_on_finish` or `exit_hook` flow-level decorator,
`analyze_graph` raises the distinguishable not-supported error — for every
traversal budget, including zero, showing validation runs before traversal
and no `FlowSpec` is produced. -/
theorem c3_validation_rejects_unsupported (fuel : Nat) (g : Graph) (f : Flow) :
    ((∃ nd ∈ g, nd.parallel_foreach = true)
      ∨ (∃ nd ∈ g, ∃ d ∈ nd.decorators, d.name = "batch" ∨ d.name = "slurm")
      ∨ flowDecos f "trigger" ≠ [] ∨ flowDecos f "trigger_on_finish" ≠ []
      ∨ flowDecos f "exit_hook" ≠ []) →
    ∃ msg, analyzeGraph fuel g f = .error (.notSupported msg) := by
  intro hbad
  cases hv : validate g f with
  | error m =>
    refine ⟨m, ?_⟩
    unfold analyzeGraph
    rw [hv]
  | ok u =>
    exfalso
    cases u
    obtain ⟨hnodes, hflow⟩ := validate_ok hv
    obtain ⟨ht, htf, he⟩ := validateFlowDecos_ok hflow
    rcases hbad with ⟨nd, hmem, hpf⟩ | ⟨nd, hmem, d, hdm, hname⟩ | h | h | h
    · exact absurd hpf (by simp [(validateNodes_ok hmem hnodes).1])
    · obtain ⟨hb, hs⟩ := validateDecos_ok hdm (validateNodes_ok hmem hnodes).2
      rcases hname with h | h
      · exact hb h
      · exact hs h
    · exact h ht
    · exact h htf
    · exact h he

/-- **C3 witness**: the batch-decorated graph, the parallel graph and the
trigger-carrying flow are all rejected even with zero traversal fuel. -/
theorem c3_validation_rejects_unsupported_witness :
    (∃ msg, analyzeGraph 0 batchGraph (plainFlow "BadFlow") = .error (.notSupported msg))
  ∧ (∃ msg, analyzeGraph 0 parallelGraph (plainFlow "BadFlow") = .error (.notSupported msg))
  ∧ (∃ msg, analyzeGraph 0 simpleGraph triggerFlow = .error (.notSupported msg)) :=
  ⟨c3_validation_rejects_unsupported 0 batchGraph (plainFlow "BadFlow")
      (Or.inr (Or.inl (by decide))),
   c3_validation_rejects_unsupported 0 parallelGraph (plainFlow "BadFlow")
      (Or.inl (by decide)),
   c3_validation_rejects_unsupported 0 simpleGraph triggerFlow
      (Or.inr (Or.inr (Or.inl (by decide))))⟩

/-- **C4**: `PrefectFlow.compile` applies the tag/namespace overlay exactly
when an overlay value is supplied (a non-empty tag list or a truthy, i.e.
non-`None` non-empty, namespace): the analyzed spec is then replaced by a
new `FlowSpec` whose `tags`/`namespace` take the supplied overlay values
(overlay wins) while `name`, `steps`, `parameters`, `description` and
`schedule_cron` are unchanged; with no overlay the analyzed spec is passed
to the generator as-is. -/
theorem c4_overlay_only_when_supplied (tags : List String) (ns : Option String)
    (spec : FlowSpec) :
    (overlayApplied tags ns = false → overlaySpec tags ns spec = spec)
  ∧ (overlayApplied tags ns = true →
        (overlaySpec tags ns spec).name = spec.name
      ∧ (overlaySpec tags ns spec).steps = spec.steps
      ∧ (overlaySpec tags ns spec).parameters = spec.parameters
      ∧ (overlaySpec tags ns spec).description = spec.description
      ∧ (overlaySpec tags ns spec).schedule_cron = spec.schedule_cron
      ∧ (overlaySpec tags ns spec).tags = (if tags ≠ [] then tags else spec.tags)
      ∧ (overlaySpec tags ns spec).namespace_ = (if ns ≠ none then ns else spec.namespace_))
  ∧ (∀ cfg fuel g f sp, analyzeGraph fuel g f = .ok sp →
        prefectCompile tags ns cfg fuel g f =
          .ok (generatePrefectFile (overlaySpec tags ns sp) cfg)) := by
  refine ⟨?_, ?_, ?_⟩
  · intro h
    unfold overlaySpec
    rw [h]
    rfl
  · intro h
    unfold overlaySpec
    rw [h]
    exact ⟨rfl, rfl, rfl, rfl, rfl, rfl, rfl⟩
  · intro cfg fuel g f sp hok
    unfold prefectCompile
    rw [hok]

/-- **C4 witness**: no overlay leaves the analyzed spec untouched; a
supplied tag list and namespace replace exactly `tags` and `namespace`. -/
theorem c4_overlay_only_when_supplied_witness :
    overlaySpec [] none sampleSpec = sampleSpec
  ∧ (overlaySpec ["cli"] (some "user:me") sampleSpec).tags = ["cli"]
  ∧ (overlaySpec ["cli"] (some "user:me") sampleSpec).namespace_ = some "user:me"
  ∧ (overlaySpec ["cli"] (some "user:me") sampleSpec).name = sampleSpec.name
  ∧ (overlaySpec ["cli"] (some "user:me") sampleSpec).schedule_cron =
      sampleSpec.schedule_cron := by
  have h0 := (c4_overlay_only_when_supplied [] none sampleSpec).1 (by rfl)
  have h1 := (c4_overlay_only_when_supplied ["cli"] (some "user:me") sampleSpec).2.1 (by rfl)
  exact ⟨h0, h1.2.2.2.2.2.1.trans (by rfl), h1.2.2.2.2.2.2.trans (by rfl), h1.1,
    h1.2.2.2.2.1⟩

/-- **C9**: compilation is deterministic — the Analyzer-then-Generator
pipeline is a pure function of the graph, flow and config inputs, so equal
inputs produce byte-identical output text. -/
theorem c9_compile_deterministic (tags₁ tags₂ : List String) (ns₁ ns₂ : Option String)
    (cfg₁ cfg₂ : PrefectFlowConfig) (fuel₁ fuel₂ : Nat) (g₁ g₂ : Graph) (f₁ f₂ : Flow) :
    tags₁ = tags₂ → ns₁ = ns₂ → cfg₁ = cfg₂ → fuel₁ = fuel₂ → g₁ = g₂ → f₁ = f₂ →
    prefectCompile tags₁ ns₁ cfg₁ fuel₁ g₁ f₁ = prefectCompile tags₂ ns₂ cfg₂ fuel₂ g₂ f₂ := by
  intro h1 h2 h3 h4 h5 h6
  rw [h1, h2, h3, h4, h5, h6]

/-- **C9 witness**: two runs on the simple flow with identical inputs. -/
theorem c9_compile_deterministic_witness :
    prefectCompile [] none testCfg 32 simpleGraph (plainFlow "SimpleFlow") =
      prefectCompile [] none testCfg 32 simpleGraph (plainFlow "SimpleFlow") :=
  c9_compile_deterministic [] [] none none testCfg testCfg 32 32 simpleGraph simpleGraph
    (plainFlow "SimpleFlow") (plainFlow "SimpleFlow") rfl rfl rfl rfl rfl rfl

/-- **C10**: every `FlowSpec` returned by `analyze_graph` has
`namespace = None`, whatever the flow carried; a non-`None` namespace on the
compiled spec can only come from the facade's namespace overlay, whose value
it then equals. -/
theorem c10_analyzer_namespace_none (fuel : Nat) (g : Graph) (f : Flow) (spec : FlowSpec)
    (tags : List String) (ns : Option String) :
    (analyzeGraph fuel g f = .ok spec → spec.namespace_ = none)
  ∧ (analyzeGraph fuel g f = .ok spec → (overlaySpec tags ns spec).namespace_ ≠ none →
        ns ≠ none ∧ (overlaySpec tags ns spec).namespace_ = ns) := by
  have hfirst : analyzeGraph fuel g f = .ok spec → spec.namespace_ = none := by
    intro h
    unfold analyzeGraph at h
    split at h
    · cases h
    · split at h
      · cases h
      · cases h
        rfl
  refine ⟨hfirst, ?_⟩
  intro h hne
  have hns := hfirst h
  unfold overlaySpec at hne ⊢
  by_cases happ : overlayApplied tags ns = true
  · rw [happ] at hne ⊢
    simp only [if_true]
    by_cases hn : ns = none
    · exfalso
      simp [hn, hns] at hne
    · exact ⟨hn, by simp [hn]⟩
  · exfalso
    rw [Bool.not_eq_true] at happ
    rw [happ] at hne
    simp [hns] at hne

/-- **C10 witness**: the analyzed simple flow has no namespace; overlaying
namespace `user:me` yields exactly that namespace. -/
theorem c10_analyzer_namespace_none_witness :
    ((analyzeGraph 32 simpleGraph (plainFlow "SimpleFlow")).map
        (fun sp => sp.namespace_) = .ok none)
  ∧ ((analyzeGraph 32 simpleGraph (plainFlow "SimpleFlow")).map
        (fun sp => (overlaySpec [] (some "user:me") sp).namespace_) = .ok (some "user:me")) := by
  have hsome : (analyzeGraph 32 simpleGraph (plainFlow "SimpleFlow")).toOption.isSome = true :=
    by rfl
  have hok : analyzeGraph 32 simpleGraph (plainFlow "SimpleFlow") =
      .ok ((analyzeGraph 32 simpleGraph (plainFlow "SimpleFlow")).toOption.get hsome) := by rfl
  have h := c10_analyzer_namespace_none 32 simpleGraph (plainFlow "SimpleFlow")
    ((analyzeGraph 32 simpleGraph (plainFlow "SimpleFlow")).toOption.get hsome)
    [] (some "user:me")
  have h1 := h.1 hok
  have h2 := (h.2 hok (by
    intro hc
    rw [show (overlaySpec [] (some "user:me")
        ((analyzeGraph 32 simpleGraph (plainFlow "SimpleFlow")).toOption.get hsome)).namespace_
        = some "user:me" from by rfl] at hc
    cases hc)).2
  rw [hok]
  exact ⟨by simp only [Except.map]; rw [h1], by simp only [Except.map]; rw [h2]⟩

/-- **C2 counterexample**: `cyclicGraph` is accepted by validation, every
reachable node has all its predecessors reachable from the unique
no-predecessor start node, and a unique no-successor end node exists; yet
the deferral loop of `_topological_order` requeues node `a` forever (its
predecessor `b` is only reachable through `a`), so the traversal never
terminates and `analyze_graph` produces nothing, for every fuel budget. -/
theorem c2_cyclic_graph_traversal_diverges :
    validate cyclicGraph (plainFlow "CyclicFlow") = .ok ()
  ∧ (∀ fuel, topologicalOrder cyclicGraph fuel = .error .fuelExhausted)
  ∧ (∀ fuel, analyzeGraph fuel cyclicGraph (plainFlow "CyclicFlow") =
        .error (.topo .fuelExhausted)) := by
  have hloop : ∀ n, topoLoop cyclicGraph n ["start"] ["a"]
      [{ name := "start", node_type := .start, in_funcs := [], out_funcs := ["a"],
         split_parents := [], max_user_code_retries := 0, is_foreach_join := false,
         is_split_join := false, timeout_seconds := none, retry_delay_seconds := none,
         env_vars := [] }] = .error .fuelExhausted := by
    intro n
    induction n with
    | zero => rfl
    | succ k ih => exact ih
  have htopo : ∀ fuel, topologicalOrder cyclicGraph fuel = .error .fuelExhausted := by
    intro fuel
    cases fuel with
    | zero => rfl
    | succ k => exact hloop k
  refine ⟨by rfl, htopo, ?_⟩
  intro fuel
  unfold analyzeGraph
  rw [show validate cyclicGraph (plainFlow "CyclicFlow") = .ok () from rfl, htopo fuel]

/-! ### Lemmas for the amended topological-order claim -/

theorem topoLoop_succ_nil {g : Graph} {fuel : Nat} {vis : List String}
    {res : List StepSpec} : topoLoop g (fuel + 1) vis [] res = .ok res := rfl

theorem topoLoop_succ_visited {g : Graph} {fuel : Nat} {vis queue : List String}
    {res : List StepSpec} {name : String} (h : name ∈ vis) :
    topoLoop g (fuel + 1) vis (name :: queue) res = topoLoop g fuel vis queue res := by
  conv_lhs => unfold topoLoop
  rw [if_pos h]

theorem topoLoop_succ_defer {g : Graph} {fuel : Nat} {vis queue : List String}
    {res : List StepSpec} {name : String} {nd : Node} (h1 : name ∉ vis)
    (h2 : lookupNode g name = some nd)
    (h3 : nd.in_funcs.any (fun p => !(vis.contains p)) = true) :
    topoLoop g (fuel + 1) vis (name :: queue) res =
      topoLoop g fuel vis (queue ++ [name]) res := by
  conv_lhs => unfold topoLoop
  rw [if_neg h1, h2]
  simp only [h3, if_true]

theorem topoLoop_succ_visit {g : Graph} {fuel : Nat} {vis queue : List String}
    {res : List StepSpec} {name : String} {nd : Node} {spec : StepSpec} (h1 : name ∉ vis)
    (h2 : lookupNode g name = some nd)
    (h3 : nd.in_funcs.any (fun p => !(vis.contains p)) = false)
    (h4 : mkStepSpec g nd = .ok spec) :
    topoLoop g (fuel + 1) vis (name :: queue) res =
      topoLoop g fuel (name :: vis)
        (queue ++ nd.out_funcs.filter (fun c => !((name :: vis).contains c)))
        (res ++ [spec]) := by
  conv_lhs => unfold topoLoop
  rw [if_neg h1, h2]
  simp only [h3, if_false, Bool.false_eq_true, h4]

theorem findIdx_append_left {p : String → Bool} {l₁ : List String} (l₂ : List String)
    (h : l₁.findIdx p < l₁.length) : (l₁ ++ l₂).findIdx p = l₁.findIdx p := by
  induction l₁ with
  | nil => simp at h
  | cons a t ih =>
    rw [List.cons_append, List.findIdx_cons, List.findIdx_cons]
    cases hpa : p a with
    | true => simp
    | false =>
      simp only [cond_false]
      rw [List.findIdx_cons, hpa] at h
      simp only [cond_false, List.length_cons] at h
      have := ih (by omega)
      omega

theorem exists_min_rank (rank : String → Nat) :
    ∀ (t : List String) (a : String), ∃ u ∈ a :: t, ∀ x ∈ a :: t, rank u ≤ rank x := by
  intro t
  induction t with
  | nil =>
    intro a
    exact ⟨a, List.mem_cons_self a [], by
      intro x hx
      simp at hx
      rw [hx]⟩
  | cons b t' ih =>
    intro a
    obtain ⟨u, hu, hmin⟩ := ih b
    by_cases hle : rank a ≤ rank u
    · refine ⟨a, List.mem_cons_self a (b :: t'), ?_⟩
      intro x hx
      cases List.mem_cons.mp hx with
      | inl he => rw [he]
      | inr hm => exact le_trans hle (hmin x hm)
    · refine ⟨u, List.mem_cons_of_mem a hu, ?_⟩
      intro x hx
      cases List.mem_cons.mp hx with
      | inl he => rw [he]; omega
      | inr hm => exact hmin x hm

theorem length_filter_ne_lt {a : String} : ∀ {l : List String}, a ∈ l →
    (l.filter (fun n => !(n == a))).length < l.length := by
  intro l
  induction l with
  | nil => intro h; cases h
  | cons b t ih =>
    intro h
    rw [List.filter_cons]
    by_cases hba : b = a
    · have hcond : (!(b == a)) = false := by simp [hba]
      rw [hcond]
      simp only [Bool.false_eq_true, if_false]
      exact lt_of_le_of_lt (List.length_filter_le _ t) (by simp)
    · have hcond : (!(b == a)) = true := by simp [hba]
      rw [hcond]
      have hmem : a ∈ t := by
        rcases List.mem_cons.mp h with he | hm
        · exact absurd he.symm hba
        · exact hm
      simp only [if_true, List.length_cons]
      exact Nat.succ_lt_succ (ih hmem)

theorem ucount_cons_lt {R vis : List String} {h : String} (hR : h ∈ R) (hv : h ∉ vis) :
    ucount R (h :: vis) < ucount R vis := by
  unfold ucount
  have heq : R.filter (fun n => !((h :: vis).contains n)) =
      (R.filter (fun n => !vis.contains n)).filter (fun n => !(n == h)) := by
    rw [List.filter_filter]
    apply List.filter_congr
    intro x _
    simp only [List.contains_cons, Bool.not_or]
  rw [heq]
  have hS : h ∈ R.filter (fun n => !vis.contains n) := by
    rw [List.mem_filter]
    exact ⟨hR, by simpa using hv⟩
  exact length_filter_ne_lt hS

theorem lookupR {g : Graph} {R : List String} {rank : String → Nat}
    (hw : WellFormedDag g R rank) {n : String} (hn : n ∈ R) :
    ∃ nd, lookupNode g n = some nd ∧ nd.name = n ∧ nd ∈ g := by
  obtain ⟨nd, hmem, hname⟩ := List.mem_map.mp (hw.resolve n hn)
  exact ⟨nd, by rw [← hname]; exact lookupNode_of_mem hw.namesNodup hmem, hname, hmem⟩

theorem frontier_ready {g : Graph} {R : List String} {rank : String → Nat}
    {vis queue : List String} {res : List StepSpec} (hw : WellFormedDag g R rank)
    (inv : TraversalInv g R vis queue res) (hex : ∃ n ∈ R, n ∉ vis) :
    ∃ r ∈ queue, isReady g vis r = true := by
  obtain ⟨n0, hn0R, hn0v⟩ := hex
  have hn0S : n0 ∈ R.filter (fun n => !vis.contains n) := by
    rw [List.mem_filter]
    exact ⟨hn0R, by simpa using hn0v⟩
  obtain ⟨a, t, hS⟩ : ∃ a t, R.filter (fun n => !vis.contains n) = a :: t := by
    cases hC : R.filter (fun n => !vis.contains n) with
    | nil => rw [hC] at hn0S; cases hn0S
    | cons a t => exact ⟨a, t, rfl⟩
  obtain ⟨u, hu, humin⟩ := exists_min_rank rank t a
  rw [← hS] at hu humin
  have huR : u ∈ R := (List.mem_filter.mp hu).1
  have huv : u ∉ vis := by
    have := (List.mem_filter.mp hu).2
    simpa using this
  obtain ⟨nd, hlook, hname, hmem⟩ := lookupR hw huR
  have hpreds : ∀ p ∈ nd.in_funcs, p ∈ vis := by
    intro p hp
    by_contra hpv
    have hpR : p ∈ R := hw.closedIn nd hmem (hname ▸ huR) p hp
    have hpS : p ∈ R.filter (fun n => !vis.contains n) := by
      rw [List.mem_filter]
      exact ⟨hpR, by simpa using hpv⟩
    have h1 : rank u ≤ rank p := humin p hpS
    have h2 : rank p < rank u := by
      have := hw.rankIn nd hmem (hname ▸ huR) p hp
      rwa [hname] at this
    omega
  refine ⟨u, ?_, ?_⟩
  · exact inv.frontier u huR huv (by
      intro nd' hnd' p hp
      rw [hlook] at hnd'
      cases hnd'
      exact hpreds p hp)
  · unfold isReady
    rw [hlook]
    have h1 : (!vis.contains u) = true := by simpa using huv
    have h2 : nd.in_funcs.all (fun p => vis.contains p) = true := by
      rw [List.all_eq_true]
      intro p hp
      simpa using hpreds p hp
    simp only [hlook]
    simp [h1, h2]
    exact ⟨huv, hpreds⟩

theorem inv_initial {g : Graph} {R : List String} {rank : String → Nat}
    (hw : WellFormedDag g R rank) : TraversalInv g R [] ["start"] [] := by
  refine ⟨?_, ?_, List.nodup_nil, rfl, ?_, ?_, ?_⟩
  · intro n hn; cases hn
  · intro n hn
    have : n = "start" := by simpa using hn
    rw [this]
    exact hw.startMem
  · intro s hs; cases hs
  · intro i hi; simp at hi
  · intro n hn _ hpreds
    obtain ⟨nd, hlook, hname, hmem⟩ := lookupR hw hn
    have hin : nd.in_funcs = [] := by
      rw [List.eq_nil_iff_forall_not_mem]
      intro p hp
      have := hpreds nd hlook p hp
      cases this
    have hstart := hw.noPredUnique nd hmem (hname ▸ hn) hin
    rw [hname] at hstart
    rw [hstart]
    exact List.mem_singleton_self "start"

theorem inv_tail_visited {g : Graph} {R : List String} {vis t : List String}
    {res : List StepSpec} {h : String} (inv : TraversalInv g R vis (h :: t) res)
    (hv : h ∈ vis) : TraversalInv g R vis t res := by
  refine ⟨inv.visR, fun n hn => inv.queueR n (List.mem_cons_of_mem h hn), inv.visNodup,
    inv.resNames, inv.resSpec, inv.resOrder, ?_⟩
  intro n hnR hnv hpreds
  have := inv.frontier n hnR hnv hpreds
  rcases List.mem_cons.mp this with he | hm
  · exact absurd (he ▸ hv) hnv
  · exact hm

theorem inv_requeue {g : Graph} {R : List String} {vis t : List String}
    {res : List StepSpec} {h : String} (inv : TraversalInv g R vis (h :: t) res) :
    TraversalInv g R vis (t ++ [h]) res := by
  refine ⟨inv.visR, ?_, inv.visNodup, inv.resNames, inv.resSpec, inv.resOrder, ?_⟩
  · intro n hn
    rcases List.mem_append.mp hn with hm | hm
    · exact inv.queueR n (List.mem_cons_of_mem h hm)
    · have : n = h := by simpa using hm
      exact inv.queueR n (this ▸ List.mem_cons_self h t)
  · intro n hnR hnv hpreds
    have := inv.frontier n hnR hnv hpreds
    rcases List.mem_cons.mp this with he | hm
    · rw [he]
      exact List.mem_append.mpr (Or.inr (List.mem_singleton_self h))
    · exact List.mem_append.mpr (Or.inl hm)

theorem goodResult_of_all {g : Graph} {R : List String} {vis queue : List String}
    {res : List StepSpec} (inv : TraversalInv g R vis queue res)
    (hall : ∀ n ∈ R, n ∈ vis) : GoodResult g R res := by
  refine ⟨?_, ?_, inv.resOrder, inv.resSpec⟩
  · rw [inv.resNames]
    exact List.nodup_reverse.mpr inv.visNodup
  · intro n
    rw [inv.resNames, List.mem_reverse]
    exact ⟨fun hv => inv.visR n hv, fun hr => hall n hr⟩

theorem topoLoop_drain {g : Graph} {R : List String} :
    ∀ (queue vis : List String) (res : List StepSpec),
    TraversalInv g R vis queue res → (∀ n ∈ R, n ∈ vis) →
    ∃ fuel l, topoLoop g fuel vis queue res = .ok l ∧ GoodResult g R l := by
  intro queue
  induction queue with
  | nil =>
    intro vis res inv hall
    exact ⟨1, res, topoLoop_succ_nil, goodResult_of_all inv hall⟩
  | cons h t ih =>
    intro vis res inv hall
    have hv : h ∈ vis := hall h (inv.queueR h (List.mem_cons_self h t))
    obtain ⟨fuel, l, heq, hg⟩ := ih vis res (inv_tail_visited inv hv) hall
    exact ⟨fuel + 1, l, by rw [topoLoop_succ_visited hv]; exact heq, hg⟩

theorem inv_visit {g : Graph} {R : List String} {rank : String → Nat}
    (hw : WellFormedDag g R rank) {vis t : List String} {res : List StepSpec}
    {h : String} {nd : Node} {spec : StepSpec}
    (inv : TraversalInv g R vis (h :: t) res)
    (hhv : h ∉ vis) (hnd : lookupNode g h = some nd)
    (hdef : nd.in_funcs.any (fun p => !(vis.contains p)) = false)
    (hmk : mkStepSpec g nd = .ok spec) :
    TraversalInv g R (h :: vis)
      (t ++ nd.out_funcs.filter (fun c => !((h :: vis).contains c)))
      (res ++ [spec]) := by
  have hhR : h ∈ R := inv.queueR h (List.mem_cons_self h t)
  obtain ⟨hndg, hndname⟩ := lookupNode_eq_some hnd
  obtain ⟨hspecname, hspecin, hspecout⟩ := mkStepSpec_fields hmk
  have hpredsvis : ∀ p ∈ nd.in_funcs, p ∈ vis := by
    intro p hp
    have hfalse := List.any_eq_false.mp hdef p hp
    have : vis.contains p = true := by
      cases hc : vis.contains p with
      | true => rfl
      | false => rw [hc] at hfalse; simp at hfalse
    simpa using this
  refine ⟨?_, ?_, ?_, ?_, ?_, ?_, ?_⟩
  · intro n hn
    rcases List.mem_cons.mp hn with he | hm
    · rw [he]; exact hhR
    · exact inv.visR n hm
  · intro n hn
    rcases List.mem_append.mp hn with hm | hm
    · exact inv.queueR n (List.mem_cons_of_mem h hm)
    · have hout : n ∈ nd.out_funcs := (List.mem_filter.mp hm).1
      exact hw.closedOut nd hndg (hndname ▸ hhR) n hout
  · exact List.nodup_cons.mpr ⟨hhv, inv.visNodup⟩
  · rw [List.map_append, inv.resNames, List.reverse_cons]
    simp [hspecname, hndname]
  · intro s hs
    rcases List.mem_append.mp hs with hm | hm
    · exact inv.resSpec s hm
    · have hse : s = spec := by simpa using hm
      refine ⟨nd, ?_, by rw [hse]; exact hmk⟩
      rw [hse, hspecname, hndname]
      exact hnd
  · intro i hi p hp
    by_cases hilt : i < res.length
    · have hget : (res ++ [spec]).get ⟨i, hi⟩ = res.get ⟨i, hilt⟩ := by
        rw [List.get_eq_getElem, List.get_eq_getElem]
        exact List.getElem_append_left hilt
      rw [hget] at hp
      have htake : (res ++ [spec]).take i = res.take i :=
        List.take_append_of_le_length (le_of_lt hilt)
      rw [htake]
      exact inv.resOrder i hilt p hp
    · have hieq : i = res.length := by
        have : i < res.length + 1 := by simpa using hi
        omega
      have hget : (res ++ [spec]).get ⟨i, hi⟩ = spec := by
        subst hieq
        rw [List.get_eq_getElem, List.getElem_append_right (le_refl res.length)]
        simp
      rw [hget, hspecin] at hp
      have hpv : p ∈ vis := hpredsvis p hp
      have htake : (res ++ [spec]).take i = res := by
        rw [hieq]
        exact List.take_left res [spec]
      rw [htake, inv.resNames, List.mem_reverse]
      exact hpv
  · intro n hnR hnv hpreds
    obtain ⟨ndn, hlookn, hnamen, hmemn⟩ := lookupR hw hnR
    by_cases hold : ∀ p ∈ ndn.in_funcs, p ∈ vis
    · have hmemq : n ∈ h :: t := inv.frontier n hnR
        (fun hc => hnv (List.mem_cons_of_mem h hc)) (by
          intro nd' hnd' p hp
          rw [hlookn] at hnd'
          cases hnd'
          exact hold p hp)
      rcases List.mem_cons.mp hmemq with he | hm
      · exact absurd (by rw [he]; exact List.mem_cons_self h vis) hnv
      · exact List.mem_append.mpr (Or.inl hm)
    · push_neg at hold
      obtain ⟨p, hp, hpv⟩ := hold
      have hph : p = h := by
        have := hpreds ndn hlookn p hp
        rcases List.mem_cons.mp this with he | hm
        · exact he
        · exact absurd hm hpv
      have hnout : n ∈ nd.out_funcs := by
        have := hw.consistentRev ndn hmemn (hnamen ▸ hnR) nd hndg
          (by rw [hndname, ← hph]; exact hp)
        rwa [hnamen] at this
      refine List.mem_append.mpr (Or.inr ?_)
      rw [List.mem_filter]
      exact ⟨hnout, by simpa using hnv⟩

theorem queue_nil_total {g : Graph} {R : List String} {rank : String → Nat}
    (hw : WellFormedDag g R rank) {vis : List String} {res : List StepSpec}
    (inv : TraversalInv g R vis [] res) :
    ∃ fuel l, topoLoop g fuel vis [] res = .ok l ∧ GoodResult g R l := by
  by_cases hex : ∃ n ∈ R, n ∉ vis
  · obtain ⟨r, hr, _⟩ := frontier_ready hw inv hex
    cases hr
  · push_neg at hex
    exact topoLoop_drain [] vis res inv hex

theorem isReady_false_of_visited {g : Graph} {vis : List String} {h : String}
    (hv : h ∈ vis) : isReady g vis h = false := by
  unfold isReady
  have : vis.contains h = true := by simpa using hv
  rw [this]
  rfl

theorem topoLoop_total {g : Graph} {R : List String} {rank : String → Nat}
    (hw : WellFormedDag g R rank) :
    ∀ U Q (vis queue : List String) (res : List StepSpec),
      TraversalInv g R vis queue res →
      ucount R vis ≤ U →
      queue.findIdx (isReady g vis) ≤ Q →
      ∃ fuel l, topoLoop g fuel vis queue res = .ok l ∧ GoodResult g R l := by
  intro U
  induction U with
  | zero =>
    intro Q vis queue res inv hU _
    have hall : ∀ n ∈ R, n ∈ vis := by
      intro n hn
      by_contra hnv
      have hmem : n ∈ R.filter (fun m => !vis.contains m) := by
        rw [List.mem_filter]
        exact ⟨hn, by simpa using hnv⟩
      have : 0 < ucount R vis := by
        unfold ucount
        exact List.length_pos.mpr (List.ne_nil_of_mem hmem)
      omega
    exact topoLoop_drain queue vis res inv hall
  | succ U ihU =>
    intro Q
    induction Q with
    | zero =>
      intro vis queue res inv hU hQ
      cases queue with
      | nil => exact queue_nil_total hw inv
      | cons h t =>
        have hready : isReady g vis h = true := by
          cases hc : isReady g vis h with
          | true => rfl
          | false =>
            rw [List.findIdx_cons, hc] at hQ
            simp at hQ
        have hhv : h ∉ vis := by
          intro hc
          rw [isReady_false_of_visited hc] at hready
          cases hready
        have hhR : h ∈ R := inv.queueR h (List.mem_cons_self h t)
        obtain ⟨nd, hnd, hname, hmemg⟩ := lookupR hw hhR
        have hallpreds : nd.in_funcs.all (fun p => vis.contains p) = true := by
          unfold isReady at hready
          rw [hnd] at hready
          simp only [Bool.and_eq_true] at hready
          exact hready.2
        have hdef : nd.in_funcs.any (fun p => !(vis.contains p)) = false := by
          rw [List.any_eq_false]
          intro p hp
          have hcp := List.all_eq_true.mp hallpreds p hp
          simpa using hcp
        obtain ⟨spec, hmk⟩ := exceptIsOk_iff.mp (hw.mkOk nd hmemg (hname ▸ hhR))
        have inv' := inv_visit hw inv hhv hnd hdef hmk
        have hU' : ucount R (h :: vis) ≤ U := by
          have := ucount_cons_lt hhR hhv
          omega
        obtain ⟨fuel, l, heq, hg⟩ := ihU
          ((t ++ nd.out_funcs.filter (fun c => !((h :: vis).contains c))).findIdx
            (isReady g (h :: vis)))
          (h :: vis) _ (res ++ [spec]) inv' hU' (le_refl _)
        exact ⟨fuel + 1, l, by rw [topoLoop_succ_visit hhv hnd hdef hmk]; exact heq, hg⟩
    | succ Q ihQ =>
      intro vis queue res inv hU hQ
      cases queue with
      | nil => exact queue_nil_total hw inv
      | cons h t =>
        by_cases hhv : h ∈ vis
        · have hQt : t.findIdx (isReady g vis) ≤ Q := by
            rw [List.findIdx_cons, isReady_false_of_visited hhv] at hQ
            simpa using hQ
          obtain ⟨fuel, l, heq, hg⟩ := ihQ vis t res (inv_tail_visited inv hhv) hU hQt
          exact ⟨fuel + 1, l, by rw [topoLoop_succ_visited hhv]; exact heq, hg⟩
        · have hhR : h ∈ R := inv.queueR h (List.mem_cons_self h t)
          obtain ⟨nd, hnd, hname, hmemg⟩ := lookupR hw hhR
          by_cases hdef : nd.in_funcs.any (fun p => !(vis.contains p)) = true
          · have hnotready : isReady g vis h = false := by
              unfold isReady
              rw [hnd]
              show (!vis.contains h && nd.in_funcs.all fun p => vis.contains p) = false
              obtain ⟨p, hp, hpc⟩ := List.any_eq_true.mp hdef
              have hall : nd.in_funcs.all (fun q => vis.contains q) = false := by
                cases hc : nd.in_funcs.all (fun q => vis.contains q) with
                | false => rfl
                | true =>
                  have := List.all_eq_true.mp hc p hp
                  rw [this] at hpc
                  simp at hpc
              rw [hall]
              simp
            obtain ⟨r, hrq, hrr⟩ := frontier_ready hw inv ⟨h, hhR, hhv⟩
            have hrt : r ∈ t := by
              rcases List.mem_cons.mp hrq with he | hm
              · rw [he] at hrr
                rw [hnotready] at hrr
                cases hrr
              · exact hm
            have hfi_t : t.findIdx (isReady g vis) < t.length :=
              List.findIdx_lt_length_of_exists ⟨r, hrt, hrr⟩
            have hQ' : (t ++ [h]).findIdx (isReady g vis) ≤ Q := by
              rw [findIdx_append_left [h] hfi_t]
              rw [List.findIdx_cons, hnotready] at hQ
              simpa using hQ
            obtain ⟨fuel, l, heq, hg⟩ := ihQ vis (t ++ [h]) res (inv_requeue inv) hU hQ'
            exact ⟨fuel + 1, l, by rw [topoLoop_succ_defer hhv hnd hdef]; exact heq, hg⟩
          · have hdef' : nd.in_funcs.any (fun p => !(vis.contains p)) = false := by
              cases hc : nd.in_funcs.any (fun p => !(vis.contains p)) with
              | false => rfl
              | true => exact absurd hc hdef
            obtain ⟨spec, hmk⟩ := exceptIsOk_iff.mp (hw.mkOk nd hmemg (hname ▸ hhR))
            have inv' := inv_visit hw inv hhv hnd hdef' hmk
            have hU' : ucount R (h :: vis) ≤ U := by
              have := ucount_cons_lt hhR hhv
              omega
            obtain ⟨fuel, l, heq, hg⟩ := ihU
              ((t ++ nd.out_funcs.filter (fun c => !((h :: vis).contains c))).findIdx
                (isReady g (h :: vis)))
              (h :: vis) _ (res ++ [spec]) inv' hU' (le_refl _)
            exact ⟨fuel + 1, l, by rw [topoLoop_succ_visit hhv hnd hdef' hmk]; exact heq, hg⟩

theorem reach_mem_R {g : Graph} {R : List String} {rank : String → Nat}
    (hw : WellFormedDag g R rank) {n : String} (hr : Reach g n) : n ∈ R := by
  induction hr with
  | start => exact hw.startMem
  | step _ hlook hout ih =>
    obtain ⟨hmem, hname⟩ := lookupNode_eq_some hlook
    exact hw.closedOut _ hmem (hname ▸ ih) _ hout

theorem mem_R_reach {g : Graph} {R : List String} {rank : String → Nat}
    (hw : WellFormedDag g R rank) : ∀ n ∈ R, Reach g n := by
  have main : ∀ k n, n ∈ R → rank n < k → Reach g n := by
    intro k
    induction k with
    | zero => intro n _ hk; omega
    | succ k ih =>
      intro n hn hk
      by_cases hstart : n = "start"
      · rw [hstart]
        exact Reach.start
      · obtain ⟨nd, hlook, hname, hmem⟩ := lookupR hw hn
        have hinne : nd.in_funcs ≠ [] := by
          intro hnil
          apply hstart
          rw [← hname]
          exact hw.noPredUnique nd hmem (hname ▸ hn) hnil
        obtain ⟨p, hp⟩ : ∃ p, p ∈ nd.in_funcs := by
          cases hc : nd.in_funcs with
          | nil => exact absurd hc hinne
          | cons a rest => exact ⟨a, List.mem_cons_self a rest⟩
        have hpR : p ∈ R := hw.closedIn nd hmem (hname ▸ hn) p hp
        have hrankp : rank p < rank n := by
          have := hw.rankIn nd hmem (hname ▸ hn) p hp
          rwa [hname] at this
        obtain ⟨pd, hplook, hpname, hpmem⟩ := lookupR hw hpR
        have hout : n ∈ pd.out_funcs := by
          have := hw.consistentRev nd hmem (hname ▸ hn) pd hpmem (by rw [hpname]; exact hp)
          rwa [hname] at this
        exact Reach.step (ih p hpR (by omega)) hplook hout
  exact fun n hn => main (rank n + 1) n hn (by omega)

theorem nodup_mem_take_lt {N : List String} (hnd : N.Nodup) {i j : Nat} (hi : i < N.length)
    (hmem : N.get ⟨i, hi⟩ ∈ N.take j) : i < j := by
  obtain ⟨k, hk⟩ := List.mem_iff_get.mp hmem
  have hkj : k.1 < j := lt_of_lt_of_le k.2 (by rw [List.length_take]; exact min_le_left _ _)
  have hklen : k.1 < N.length := lt_of_lt_of_le k.2 (by
    rw [List.length_take]; exact min_le_right _ _)
  have hget : N.get ⟨k.1, hklen⟩ = N.get ⟨i, hi⟩ := by
    rw [← hk, List.get_eq_getElem, List.get_eq_getElem, List.getElem_take]
  have hfin : (⟨k.1, hklen⟩ : Fin N.length) = ⟨i, hi⟩ := hnd.get_inj_iff.mp hget
  have : k.1 = i := congrArg Fin.val hfin
  omega

theorem get_mem_drop {α : Type} (l : List α) (m : Nat) (j : Fin l.length) (h : m ≤ j.1) :
    l.get j ∈ l.drop m := by
  rw [List.mem_iff_getElem]
  refine ⟨j.1 - m, by rw [List.length_drop]; omega, ?_⟩
  rw [List.getElem_drop, List.get_eq_getElem]
  congr 1
  omega

/-- **C2** (amended): for a well-formed acyclic graph — every name of the
node set `R` resolves, `R` is edge-closed, `in_funcs`/`out_funcs` are
converse edge lists, a rank function certifies acyclicity (so every
reachable node's predecessors are reachable and visitable first), `start`
is the unique no-predecessor node and `end` the unique no-successor node —
the BFS traversal of `analyze_graph` terminates, and its output lists every
reachable node exactly once in a valid topological order: the first step is
`start`, the last is `end`, every step appears after all members of its
`in_funcs` and before all members of its `out_funcs`. -/
theorem c2_topological_order_correct (g : Graph) (R : List String) (rank : String → Nat)
    (f : Flow) (hw : WellFormedDag g R rank) (hv : validate g f = .ok ()) :
    ∃ fuel l,
      topologicalOrder g fuel = .ok l
    ∧ (∃ spec, analyzeGraph fuel g f = .ok spec ∧ spec.steps = l)
    ∧ (l.map StepSpec.name).Nodup
    ∧ (∀ n, n ∈ l.map StepSpec.name ↔ Reach g n)
    ∧ (∀ n, n ∈ R ↔ Reach g n)
    ∧ (∀ i (hi : i < l.length), ∀ p ∈ (l.get ⟨i, hi⟩).in_funcs,
         p ∈ (l.take i).map StepSpec.name)
    ∧ (∀ i (hi : i < l.length), ∀ c ∈ (l.get ⟨i, hi⟩).out_funcs,
         c ∈ (l.drop (i + 1)).map StepSpec.name)
    ∧ l.head?.map StepSpec.name = some "start"
    ∧ l.getLast?.map StepSpec.name = some "end" := by
  obtain ⟨fuel, l, heq, hnodup, hiffR, horder, hspecs⟩ :=
    topoLoop_total hw (ucount R []) (["start"].findIdx (isReady g [])) [] ["start"] []
      (inv_initial hw) (le_refl _) (le_refl _)
  have hRreach : ∀ n, n ∈ R ↔ Reach g n :=
    fun n => ⟨fun h => mem_R_reach hw n h, fun h => reach_mem_R hw h⟩
  have hnodeAt : ∀ i (hi : i < l.length), ∃ nd,
      lookupNode g (l.get ⟨i, hi⟩).name = some nd
      ∧ (l.get ⟨i, hi⟩).name = nd.name
      ∧ (l.get ⟨i, hi⟩).in_funcs = nd.in_funcs
      ∧ (l.get ⟨i, hi⟩).out_funcs = nd.out_funcs
      ∧ nd ∈ g ∧ nd.name ∈ R := by
    intro i hi
    obtain ⟨nd, hlook, hmk⟩ := hspecs (l.get ⟨i, hi⟩) (l.get_mem _ _)
    obtain ⟨h1, h2, h3⟩ := mkStepSpec_fields hmk
    obtain ⟨hmem, hname⟩ := lookupNode_eq_some hlook
    refine ⟨nd, hlook, h1.symm ▸ rfl, h2, h3, hmem, ?_⟩
    rw [hname]
    exact (hiffR _).mp (List.mem_map_of_mem _ (l.get_mem _ _))
  have hout : ∀ i (hi : i < l.length), ∀ c ∈ (l.get ⟨i, hi⟩).out_funcs,
      c ∈ (l.drop (i + 1)).map StepSpec.name := by
    intro i hi c hc
    obtain ⟨nd, hlook, hname, hin, houtf, hmem, hnR⟩ := hnodeAt i hi
    have hcnd : c ∈ nd.out_funcs := houtf ▸ hc
    have hcR : c ∈ R := hw.closedOut nd hmem hnR c hcnd
    have hcmem : c ∈ l.map StepSpec.name := (hiffR c).mpr hcR
    obtain ⟨s, hs, hsname⟩ := List.mem_map.mp hcmem
    obtain ⟨jf, hjget⟩ := List.mem_iff_get.mp hs
    have hij : i < jf.1 := by
      obtain ⟨cd, hclook, hcname, hcin, hcout, hcmemg, hcnR⟩ := hnodeAt jf.1 jf.2
      have hcdc : cd.name = c := by
        rw [← hcname]
        show (l.get ⟨jf.1, jf.2⟩).name = c
        rw [Fin.eta, hjget, hsname]
      have hinc : nd.name ∈ cd.in_funcs :=
        hw.consistent nd hmem hnR cd hcmemg (by rw [hcdc]; exact hcnd)
      have hmemtake : (l.get ⟨i, hi⟩).name ∈ (l.take jf.1).map StepSpec.name := by
        apply horder jf.1 jf.2
        rw [hcin, hname]
        exact hinc
      rw [List.map_take] at hmemtake
      have hilen : i < (l.map StepSpec.name).length := by
        rw [List.length_map]; exact hi
      have hgetmap : (l.map StepSpec.name).get ⟨i, hilen⟩ = (l.get ⟨i, hi⟩).name := by
        rw [List.get_eq_getElem, List.get_eq_getElem, List.getElem_map]
      exact nodup_mem_take_lt hnodup hilen (by rw [hgetmap]; exact hmemtake)
    refine List.mem_map.mpr ⟨s, ?_, hsname⟩
    rw [← hjget]
    exact get_mem_drop l (i + 1) jf (by omega)
  have hlne : l ≠ [] := by
    intro hnil
    have := (hiffR "start").mpr hw.startMem
    rw [hnil] at this
    cases this
  have h0lt : 0 < l.length := List.length_pos.mpr hlne
  have hfirst : (l.get ⟨0, h0lt⟩).name = "start" := by
    obtain ⟨nd, hlook, hname, hin, _, hmem, hnR⟩ := hnodeAt 0 h0lt
    have hinnil : nd.in_funcs = [] := by
      rw [List.eq_nil_iff_forall_not_mem]
      intro p hp
      have := horder 0 h0lt p (by rw [hin]; exact hp)
      simp at this
    rw [hname]
    exact hw.noPredUnique nd hmem hnR hinnil
  have hilast : l.length - 1 < l.length := by omega
  have hlast : (l.get ⟨l.length - 1, hilast⟩).name = "end" := by
    obtain ⟨nd, hlook, hname, _, houtf, hmem, hnR⟩ := hnodeAt (l.length - 1) hilast
    have houtnil : nd.out_funcs = [] := by
      rw [List.eq_nil_iff_forall_not_mem]
      intro c hcnd
      have := hout (l.length - 1) hilast c (by rw [houtf]; exact hcnd)
      rw [show l.length - 1 + 1 = l.length from by omega, List.drop_length] at this
      cases this
    rw [hname]
    exact (hw.endNoSucc nd hmem hnR).mp houtnil
  have htopo : topologicalOrder g fuel = .ok l := heq
  refine ⟨fuel, l, htopo, ?_, hnodup, fun n => (hiffR n).trans (hRreach n), hRreach,
    horder, hout, ?_, ?_⟩
  · refine ⟨?_, ?_, ?_⟩
    · exact
        { name := f.name
          steps := l
          parameters := extractParameters f
          description := pyStrip (f.doc.getD "")
          schedule_cron := extractSchedule f
          tags := f.tags
          namespace_ := none
          project_name := extractProject f }
    · unfold analyzeGraph
      rw [hv, htopo]
    · rfl
  · have hhead0 : l.head? = some (l.get ⟨0, h0lt⟩) := by
      cases l with
      | nil => simp at h0lt
      | cons a t => rfl
    rw [hhead0, Option.map_some', hfirst]
  · have hlast0 : l.getLast? = some (l.get ⟨l.length - 1, hilast⟩) := by
      rw [List.getLast?_eq_getElem?, List.get_eq_getElem]
      exact List.getElem?_eq_getElem hilast
    rw [hlast0, Option.map_some', hlast]

/-- **C2 witness**: the amended theorem applied to the branch flow's graph,
with its reachable set and a concrete acyclicity rank. -/
theorem c2_topological_order_correct_witness :
    ∃ fuel l, topologicalOrder branchGraph fuel = .ok l
      ∧ (l.map StepSpec.name).Nodup
      ∧ (∀ n, n ∈ l.map StepSpec.name ↔ Reach branchGraph n)
      ∧ l.head?.map StepSpec.name = some "start"
      ∧ l.getLast?.map StepSpec.name = some "end" := by
  obtain ⟨fuel, l, h1, _h2, h3, h4, _h5, _h6, _h7, h8, h9⟩ :=
    c2_topological_order_correct branchGraph branchR branchRank (plainFlow "BranchFlow")
      ⟨by decide, by decide, by decide, by decide, by decide, by decide, by decide,
       by decide, by decide, by decide, by decide, by decide, by decide⟩ (by rfl)
  exact ⟨fuel, l, h1, h3, h4, h8, h9⟩

end MetaflowPrefect
